import Mathlib

/-!
Verification of the Netease playlist extractor and downloader scripts.

This file gives a shallow embedding, over Lean strings and lists of
characters, of the functions of src/music_downloader.py and
src/download_songs.py that the stated properties are about:

* extract_playlist_id (URL parsing, via a model of urllib.parse.urlparse
  and parse_qs),
* sanitize_filename and the filename built by download_song,
* download_song with its existing-file size check and its retry loop,
  over an explicit filesystem/network environment,
* get_song_url_v1 and the sequential loop of process_playlist,
* get_playlist_detail and get_playlist_tracks with the 50-id batching,
* init_file, append_song_to_file, update_file_summary (manifest writing)
  and parse_list_file (the regex that reads the manifest back), with a
  backtracking matcher for the concrete regular expression of the source.

Network and filesystem effects are passed in as explicit oracles; every
time.sleep call is recorded in a trace in milliseconds.  Unicode digits
beyond ASCII are not modelled (the regex class for a digit is the ASCII
one); whitespace uses the standard Python whitespace set.
-/

namespace MusicList

/-- Characters Python treats as whitespace for str.strip and for the
regex class of a whitespace character (ASCII part plus the common
Unicode whitespace code points). -/
def pyWsChar (c : Char) : Bool :=
  c = ' ' || c = '\t' || c = '\n' || c = '\r' ||
  c = Char.ofNat 0x0b || c = Char.ofNat 0x0c ||
  (0x1c ≤ c.toNat && c.toNat ≤ 0x1f) ||
  c.toNat = 0x85 || c.toNat = 0xa0 || c.toNat = 0x1680 ||
  (0x2000 ≤ c.toNat && c.toNat ≤ 0x200a) ||
  c.toNat = 0x2028 || c.toNat = 0x2029 || c.toNat = 0x202f ||
  c.toNat = 0x205f || c.toNat = 0x3000

/-- ASCII decimal digit, the model of the regex class of a digit. -/
def pyDigit (c : Char) : Bool :=
  '0' ≤ c && c ≤ '9'

/-- Numeric value of an ASCII digit character. -/
def digitVal (c : Char) : Nat :=
  c.toNat - '0'.toNat

/-- Model of Python str.strip applied to a character list: drop
whitespace from both ends. -/
def pyStripChars (l : List Char) : List Char :=
  ((l.dropWhile pyWsChar).reverse.dropWhile pyWsChar).reverse

/-- Model of Python str.strip on strings. -/
def pyStrip (s : String) : String :=
  ⟨pyStripChars s.data⟩

/-- Decimal digits of a natural number prepended to an accumulator,
most significant first; the first argument is recursion fuel, always
called with at least the number itself. -/
def natCharsCore : Nat → Nat → List Char → List Char
  | 0, _, acc => acc
  | fuel + 1, n, acc =>
    if n = 0 then acc
    else natCharsCore fuel (n / 10) (Char.ofNat ('0'.toNat + n % 10) :: acc)

/-- Decimal representation of a natural number as characters, the model
of Python str formatting of a nonnegative int. -/
def natChars (n : Nat) : List Char :=
  if n = 0 then ['0'] else natCharsCore n n []

/-- Decimal representation of a natural number as a string. -/
def natStr (n : Nat) : String :=
  ⟨natChars n⟩

/-- Value of a list of ASCII digit characters read in base ten, the
model of Python int applied to a plain digit string. -/
def digitsVal (l : List Char) : Nat :=
  l.foldl (fun a c => 10 * a + digitVal c) 0

/-- Split a character list at the first occurrence of a separator
character: the part before it and, when present, the part after it. -/
def splitOnce (sep : Char) : List Char → List Char × Option (List Char)
  | [] => ([], none)
  | c :: rest =>
    if c = sep then ([], some rest)
    else
      let r := splitOnce sep rest
      (c :: r.1, r.2)

/-- Helper of splitAll: the piece read so far is carried reversed. -/
def splitAllAux (sep : Char) : List Char → List Char → List (List Char)
  | [], acc => [acc.reverse]
  | c :: rest, acc =>
    if c = sep then acc.reverse :: splitAllAux sep rest []
    else splitAllAux sep rest (c :: acc)

/-- Split a character list on every occurrence of a separator character,
the model of Python str.split with a one-character separator. -/
def splitAll (sep : Char) (l : List Char) : List (List Char) :=
  splitAllAux sep l []

/-- Does the first list occur as a contiguous run inside the second,
the model of the Python in operator on strings. -/
def containsSeq (needle : List Char) : List Char → Bool
  | [] => needle.isEmpty
  | c :: rest => needle.isPrefixOf (c :: rest) || containsSeq needle rest

/-- Characters allowed after the first one in a URL scheme, following
urllib.parse. -/
def schemeChar (c : Char) : Bool :=
  c.isAlphanum || c = '+' || c = '-' || c = '.'

/-- Strip a leading scheme: from a URL when the part before the first
colon is a valid scheme name, following urllib.parse.urlsplit. -/
def stripScheme (l : List Char) : List Char :=
  match splitOnce ':' l with
  | (_, none) => l
  | (front, some rest) =>
    match front with
    | [] => l
    | c0 :: more =>
      if c0.isAlpha && more.all schemeChar then rest else l

/-- Character ending the network-location part of a URL. -/
def netlocEnd (c : Char) : Bool :=
  c = '/' || c = '?' || c = '#'

/-- Strip a leading //netloc part, following urllib.parse.urlsplit. -/
def stripNetloc (l : List Char) : List Char :=
  match l with
  | '/' :: '/' :: rest => rest.dropWhile (fun c => !netlocEnd c)
  | _ => l

/-- Model of urllib.parse.urlparse restricted to the two components the
source reads: the path and the query.  The fragment (after the first
hash sign) is split off before the query, as urlsplit does, which is why
a hash-routed URL carries its query inside the fragment. -/
def urlPathQuery (s : String) : List Char × List Char :=
  let rest := stripNetloc (stripScheme s.data)
  let beforeFrag := (splitOnce '#' rest).1
  match splitOnce '?' beforeFrag with
  | (path, none) => (path, [])
  | (path, some q) => (path, q)

/-- Hexadecimal value of a character, when it is a hex digit. -/
def hexVal (c : Char) : Option Nat :=
  let n := c.toNat
  if 48 ≤ n ∧ n ≤ 57 then
    some (n - 48)
  else if 97 ≤ n ∧ n ≤ 102 then
    some (n - 97 + 10)
  else if 65 ≤ n ∧ n ≤ 70 then
    some (n - 65 + 10)
  else
    none

/-- Model of urllib.parse.unquote_plus on the ASCII range: plus becomes
space and a percent sign followed by two hex digits becomes the
character of that code; anything else is kept as is. -/
def unquotePlus : List Char → List Char
  | [] => []
  | '+' :: rest => ' ' :: unquotePlus rest
  | '%' :: a :: b :: rest =>
    match hexVal a, hexVal b with
    | some ha, some hb => Char.ofNat (16 * ha + hb) :: unquotePlus rest
    | _, _ => '%' :: unquotePlus (a :: b :: rest)
  | c :: rest => c :: unquotePlus rest

/-- Model of urllib.parse.parse_qs restricted to looking one key up:
split the query on ampersands, keep the chunks holding an equals sign
with a nonempty value (parse_qs drops blank values by default), decode
key and value, and return the first value stored under the key.  The
source reads params with index zero, which is this first value. -/
def firstQueryValue (key : List Char) (q : List Char) : Option (List Char) :=
  let pairs := splitAll '&' q
  let decoded := pairs.filterMap (fun chunk =>
    match splitOnce '=' chunk with
    | (_, none) => none
    | (_, some []) => none
    | (k, some v) => some (unquotePlus k, unquotePlus v))
  (decoded.find? (fun kv => kv.1 = key)).map (·.2)

/-- First path segment directly after a playlist segment, the model of
the loop of extract_playlist_id over parsed.path.split. -/
def segAfterPlaylist : List (List Char) → Option (List Char)
  | a :: b :: rest =>
    if a = "playlist".data then some b else segAfterPlaylist (b :: rest)
  | _ => none

/-- Model of NeteaseMusicDownloader.extract_playlist_id from
src/music_downloader.py.  When the input contains the word playlist it
is parsed as a URL: a nonempty query is searched for an id parameter,
otherwise the path segment after playlist is returned; any other case
falls off the end of the Python function and yields None.  An input
without the word playlist is returned unchanged. -/
def extract_playlist_id (playlist_url : String) : Option String :=
  if containsSeq "playlist".data playlist_url.data then
    let (path, query) := urlPathQuery playlist_url
    if query ≠ [] then
      match firstQueryValue "id".data query with
      | some v => some ⟨v⟩
      | none => none
    else
      match segAfterPlaylist (splitAll '/' path) with
      | some seg => some ⟨seg⟩
      | none => none
  else
    some playlist_url

/-- Characters Windows forbids in filenames, replaced by
sanitize_filename. -/
def illegalFilenameChar (c : Char) : Bool :=
  c = '<' || c = '>' || c = ':' || c = '"' || c = '/' ||
  c = '\\' || c = '|' || c = '?' || c = '*'

/-- Model of SongDownloader.sanitize_filename from
src/download_songs.py: replace every forbidden character by an
underscore, then cut the result to two hundred characters when longer. -/
def sanitize_filename (filename : String) : String :=
  let replaced := filename.data.map (fun c => if illegalFilenameChar c then '_' else c)
  ⟨if replaced.length > 200 then replaced.take 200 else replaced⟩

/-- Model of Python format int with width three and zero padding, as in
the index part of the filename. -/
def pad3 (n : Nat) : List Char :=
  List.replicate (3 - (natChars n).length) '0' ++ natChars n

/-- Raw filename built by download_song before sanitizing: index padded
to three digits, dot, space, name, space dash space, artist, dot,
extension. -/
def buildFilename (index : Nat) (name artist ext : String) : String :=
  ⟨pad3 index⟩ ++ ". " ++ name ++ " - " ++ artist ++ "." ++ ext

/-- Digit tail with optional single underscores between digits, the
model of the digit part of Python int on strings: accumulate the value,
allowing an underscore only when a digit follows it. -/
def pyIntGo : Nat → List Char → Option Nat
  | a, [] => some a
  | a, c :: rest =>
    if pyDigit c then pyIntGo (10 * a + digitVal c) rest
    else if c = '_' then
      match rest with
      | d :: rest2 => if pyDigit d then pyIntGo (10 * a + digitVal d) rest2 else none
      | [] => none
    else none

/-- Model of Python int applied to a string: strip whitespace, read an
optional sign and then digits with optional single underscores between
them; anything else raises ValueError, modelled as none. -/
def pyIntOfString (s : String) : Option Int :=
  match pyStripChars s.data with
  | '-' :: c :: rest =>
    if pyDigit c then (pyIntGo (digitVal c) rest).map (fun n => -(n : Int)) else none
  | '+' :: c :: rest =>
    if pyDigit c then (pyIntGo (digitVal c) rest).map (fun n => (n : Int)) else none
  | c :: rest =>
    if pyDigit c then (pyIntGo (digitVal c) rest).map (fun n => (n : Int)) else none
  | [] => none

/-- Model of the worker-count prompt handling of main in
src/download_songs.py: the stripped input, with the empty string
replaced by the string three, is read as an int and clamped into the
range one to ten; a ValueError yields three directly. -/
def parseWorkerCount (raw : String) : Nat :=
  let stripped := pyStrip raw
  let effective := if stripped = "" then "3" else stripped
  match pyIntOfString effective with
  | some v => (max 1 (min 10 v)).toNat
  | none => 3

/-- Python exceptions the downloader model can raise or catch. -/
inductive PyExn where
  | keyError (key : String)
  | ioError (msg : String)
  | netError (msg : String)
deriving DecidableEq, Repr

/-- Response of one HTTP request in the download model: a status code,
an optional content-length header and the number of body bytes. -/
structure HttpResponse where
  status : Nat
  contentLength : Option Nat
  bodyLen : Nat
deriving DecidableEq, Repr

/-- Outcome of one network request: a response or a raised exception
(timeout, connection error and the like). -/
inductive NetOutcome where
  | resp (r : HttpResponse)
  | raise (msg : String)
deriving DecidableEq, Repr

/-- Record handed to download_song, with every dict key optional so
that missing fields raise KeyError exactly where the source reads
them. -/
structure SongDict where
  index : Option Nat := none
  name : Option String := none
  artist : Option String := none
  song_id : Option String := none
  quality : Option String := none
  bitrate : Option Nat := none
  url : Option String := none
  size : Option Nat := none
  type : Option String := none
deriving DecidableEq, Repr

/-- Environment of download_song: the filesystem state at the target
path and the outcome of each successive network request, numbered from
zero within one call. -/
structure DlEnv where
  fileExistsAt : String → Bool
  fileSizeAt : String → Nat
  net : Nat → NetOutcome
  writeOk : String → Bool

/-- Observable effects of one download_song call: how many requests
were issued, every sleep in milliseconds in order, and the files
written with their byte counts. -/
structure DlTrace where
  requests : Nat := 0
  sleeps : List Nat := []
  written : List (String × Nat) := []
deriving DecidableEq, Repr

/-- Empty trace. -/
def DlTrace.empty : DlTrace := {}

/-- Distance of two naturals, the model of Python abs of a difference
of ints. -/
def natDist (a b : Nat) : Nat :=
  ((a : Int) - (b : Int)).natAbs

/-- Retry loop of download_song, recursing on the number of attempts
still allowed.  Each attempt reads the url key, issues one request and
either finishes on status 200 or 206 (reading the size key eagerly, as
the Python default argument of headers.get is evaluated eagerly, then
opening the target file), or sleeps two seconds and retries on any
other status or on a raised exception, failing for good on the last
attempt.  The handler prints of the source only read the index key,
which the caller has already read successfully, so no exception can
escape this loop. -/
def dlLoop (env : DlEnv) (song : SongDict) (filepath : String) :
    Nat → DlTrace → Bool × DlTrace
  | 0, tr => (false, tr)
  | remaining + 1, tr =>
    let retryOr (tr2 : DlTrace) : Bool × DlTrace :=
      if remaining > 0 then
        dlLoop env song filepath remaining { tr2 with sleeps := tr2.sleeps ++ [2000] }
      else (false, tr2)
    match song.url with
    | none => retryOr tr
    | some _ =>
      let k := tr.requests
      let tr1 := { tr with requests := k + 1 }
      match env.net k with
      | .raise _ => retryOr tr1
      | .resp r =>
        if r.status = 200 || r.status = 206 then
          match song.size with
          | none => retryOr tr1
          | some _ =>
            if env.writeOk filepath then
              (true, { tr1 with written := tr1.written ++ [(filepath, r.bodyLen)] })
            else retryOr tr1
        else retryOr tr1

/-- Model of SongDownloader.download_song from src/download_songs.py.
The outer try builds the filename (raising KeyError on a missing
field), skips the download when a file already exists at the target
path whose size is within strictly less than 1024 bytes of the size
field, and otherwise runs the retry loop.  The outer except handler
itself reads the index key to format its message, so when the record
has no index the handler raises KeyError instead of returning False. -/
def download_song (env : DlEnv) (song : SongDict) (max_retries : Nat := 3) :
    Except PyExn Bool × DlTrace :=
  match song.index with
  | none => (.error (.keyError "index"), DlTrace.empty)
  | some idx =>
    match song.name, song.artist, song.type with
    | some nm, some ar, some ty =>
      let filename := sanitize_filename (buildFilename idx nm ar ty)
      let filepath := "downloads/" ++ filename
      if env.fileExistsAt filepath then
        match song.size with
        | none => (.ok false, DlTrace.empty)
        | some sz =>
          if natDist (env.fileSizeAt filepath) sz < 1024 then
            (.ok true, DlTrace.empty)
          else
            let r := dlLoop env song filepath max_retries DlTrace.empty
            (.ok r.1, r.2)
      else
        let r := dlLoop env song filepath max_retries DlTrace.empty
        (.ok r.1, r.2)
    | _, _, _ => (.ok false, DlTrace.empty)

/-- Aggregate result of download_all_songs: the worker-pool size it was
started with and the success and failure counts. -/
structure BatchResult where
  workers : Nat
  success : Nat
  failed : Nat
deriving DecidableEq, Repr

/-- Did a download_song call end with the value True (as opposed to
False or a raised exception)? -/
def isOkTrue : Except PyExn Bool → Bool
  | .ok true => true
  | _ => false

/-- Model of SongDownloader.download_all_songs from
src/download_songs.py: every record is downloaded with its own
environment, successes and failures are counted (a raised exception
counts as a failure), and the pool is created with exactly the given
worker count. -/
def download_all_songs (envOf : SongDict → DlEnv) (songs : List SongDict)
    (max_workers : Nat := 3) : BatchResult :=
  let results := songs.map (fun s => (download_song (envOf s) s).1)
  { workers := max_workers
    success := (results.filter isOkTrue).length
    failed := (results.filter (fun r => !isOkTrue r)).length }

/-- Composition of the interactive prompt and the batch download in
main of src/download_songs.py: the prompt answer is clamped by
parseWorkerCount and passed as the worker count. -/
def mainDownloadRun (rawWorkers : String) (envOf : SongDict → DlEnv)
    (songs : List SongDict) : BatchResult :=
  download_all_songs envOf songs (parseWorkerCount rawWorkers)

/-- Model of file.readlines: split after every newline character,
keeping the newline at the end of each piece, with a last piece without
a newline kept when nonempty (helper with an accumulator in reverse). -/
def readlinesAux : List Char → List Char → List (List Char)
  | [], acc => if acc.isEmpty then [] else [acc.reverse]
  | c :: rest, acc =>
    if c = '\n' then (acc.reverse ++ ['\n']) :: readlinesAux rest []
    else readlinesAux rest (c :: acc)

/-- Model of file.readlines on a whole file content. -/
def pyReadlines (l : List Char) : List (List Char) :=
  readlinesAux l []

/-- Fifty equals signs, the separator line of the manifest. -/
def eqLine : List Char :=
  List.replicate 50 '='

/-- Summary footer appended by update_file_summary: a blank line plus
separator, the summary heading, the success count and the completion
timestamp. -/
def summaryFooter (total : Nat) (doneTime : String) : String :=
  "\n" ++ (⟨eqLine⟩ : String) ++ "\n# 统计信息\n# 成功获取直链的歌曲: " ++
    natStr total ++ " 首\n# 完成时间: " ++ doneTime ++ "\n"

/-- Two lines past the first separator line of the file, zero when no
line starts with the separator: the header_end position the source
computes before rewriting the file. -/
def headerEndOf (content : String) : Nat :=
  match (pyReadlines content.data).findIdx? (fun line => eqLine.isPrefixOf line) with
  | some i => i + 2
  | none => 0

/-- Model of NeteaseMusicDownloader.update_file_summary from
src/music_downloader.py: read all lines, locate header_end (two lines
past the first separator line, zero when absent), write the lines
numbered below header_end back one by one, write the remaining lines
back, then append the summary footer.  When header_end exceeds the
line count — the first separator line is the last line of the file —
the indexed write raises IndexError right after every line has been
written back; the handler swallows it and the file is left holding the
original lines with no footer. -/
def update_file_summary (content : String) (total : Nat) (doneTime : String) : String :=
  let lines := pyReadlines content.data
  if headerEndOf content ≤ lines.length then
    ⟨(lines.take (headerEndOf content)).flatten ++
      (lines.drop (headerEndOf content)).flatten⟩ ++ summaryFooter total doneTime
  else
    ⟨(lines.take (headerEndOf content)).flatten⟩

/-- Track record as the extractor writes it to the manifest: the dict
built in process_playlist for a successfully resolved song. -/
structure SongInfo where
  name : String
  artist : String
  song_id : Nat
  quality : String
  bitrate : Nat
  url : String
  size : Nat
  type : String
deriving DecidableEq, Repr

/-- Model of NeteaseMusicDownloader.init_file from
src/music_downloader.py: the manifest header written at the start of a
run. -/
def init_file (playlistName quality genTime : String) : String :=
  "# 歌单: " ++ playlistName ++ "\n# 音质: " ++ quality ++ "\n# 生成时间: " ++
    genTime ++ "\n" ++ (⟨eqLine⟩ : String) ++ "\n\n"

/-- Model of NeteaseMusicDownloader.append_song_to_file from
src/music_downloader.py: the block of text appended to the manifest for
one resolved track, including the four fixed advisory lines and the
blank line that close the block. -/
def append_song_to_file (song : SongInfo) (index : Nat) : String :=
  natStr index ++ ". " ++ song.name ++ " - " ++ song.artist ++
    "\n   歌曲ID: " ++ natStr song.song_id ++
    "\n   音质: " ++ song.quality ++ " (" ++ natStr song.bitrate ++ "kbps)" ++
    "\n   直链: " ++ song.url ++
    "\n   大小: " ++ natStr song.size ++ " bytes" ++
    "\n   类型: " ++ song.type ++
    "\n   下载说明: 此直链需要添加Referer请求头才能正常访问" ++
    "\n   推荐下载工具: IDM、Aria2、curl等支持自定义请求头的工具" ++
    "\n   必要请求头: Referer: https://music.163.com/" ++
    "\n   User-Agent: Mozilla/5.0 (Windows NT 10.0; Win64; x64) AppleWebKit/537.36" ++
    "\n\n"

/-- Manifest blocks for a list of records starting at a given one-based
index, as written by the loop of process_playlist. -/
def manifestBlocks : Nat → List SongInfo → String
  | _, [] => ""
  | i, s :: rest => append_song_to_file s i ++ manifestBlocks (i + 1) rest

/-- Whole manifest after the header and every block, before the summary
footer is added. -/
def writeManifest (playlistName quality genTime : String) (songs : List SongInfo) : String :=
  init_file playlistName quality genTime ++ manifestBlocks 1 songs

/-- One entry of the data array of the song url endpoint, with the keys
get_song_url_v1 reads, each optional. -/
structure UrlPayload where
  url : Option String := none
  br : Option Nat := none
  size : Option Nat := none
  type : Option String := none
deriving DecidableEq, Repr

/-- JSON envelope of the song url endpoint: HTTP status, the numeric
code field and the data array (a missing or null data field is the
empty array, which is equally falsy in the source). -/
structure UrlApiResp where
  status : Nat
  code : Option Int := none
  data : List UrlPayload := []
deriving DecidableEq, Repr

/-- Outcome of one request of get_song_url_v1. -/
inductive UrlOutcome where
  | resp (r : UrlApiResp)
  | raise (msg : String)
deriving DecidableEq, Repr

/-- Result dict of get_song_url_v1 on success. -/
structure UrlInfo where
  url : String
  level : String
  br : Nat
  size : Nat
  type : String
  song_id : Nat
deriving DecidableEq, Repr

/-- Attempt loop of get_song_url_v1, recursing on the attempts still
allowed and numbering requests from zero; the second component of the
result counts the requests actually issued.  A non-200 status, an API
code other than 200 and an empty data array sleep half a second and
retry (failing for good on the last attempt); a payload whose first
entry has a missing or empty url returns None at once without any
retry. -/
def urlLoop (oracle : Nat → UrlOutcome) (song_id : Nat) (level : String) :
    Nat → Nat → List Nat → Option UrlInfo × Nat × List Nat
  | 0, n, sl => (none, n, sl)
  | remaining + 1, n, sl =>
    let retryOr : Option UrlInfo × Nat × List Nat :=
      if remaining > 0 then urlLoop oracle song_id level remaining (n + 1) (sl ++ [500])
      else (none, n + 1, sl)
    match oracle n with
    | .raise _ => retryOr
    | .resp resp =>
      if resp.status ≠ 200 then retryOr
      else if resp.code = some 200 ∧ resp.data ≠ [] then
        match resp.data with
        | sd :: _ =>
          match sd.url with
          | some u =>
            if u ≠ "" then
              (some ⟨u, level, sd.br.getD 0, sd.size.getD 0, sd.type.getD "", song_id⟩,
                n + 1, sl)
            else (none, n + 1, sl)
          | none => (none, n + 1, sl)
        | [] => (none, n + 1, sl)
      else retryOr

/-- Model of NeteaseMusicDownloader.get_song_url_v1 from
src/music_downloader.py, which sets max_retries to two: the pair of the
resolved link info (None on failure) with the number of requests issued
and the retry sleeps in milliseconds.  The randomized one to three
second anti-caching delay before each request is not part of the trace. -/
def get_song_url_v1 (oracle : Nat → UrlOutcome) (song_id : Nat) (level : String) :
    Option UrlInfo × Nat × List Nat :=
  urlLoop oracle song_id level 2 0 []

/-- Song metadata as process_playlist reads it from the batch fetch:
id, name and the artist name list. -/
structure SongMeta where
  id : Nat
  name : String
  ar : List String
deriving DecidableEq, Repr

/-- Joined artist names, the model of the join with the unknown-artist
default in process_playlist. -/
def artistNames (ar : List String) : String :=
  if ar = [] then "未知歌手" else String.intercalate ", " ar

/-- Record built by process_playlist for a resolved song before it is
appended to the manifest. -/
def mkSongInfo (s : SongMeta) (info : UrlInfo) : SongInfo :=
  { name := s.name
    artist := artistNames s.ar
    song_id := s.id
    quality := info.level
    bitrate := info.br
    url := info.url
    size := info.size
    type := info.type }

/-- Track loop of process_playlist from src/music_downloader.py: each
song in turn is resolved (the outcome per one-based position given by
the resolver oracle); a success bumps the count and appends its block
at once, a failure appends nothing, and in both cases the loop goes on
with the remaining tracks.  Returns the success count and the text
appended to the manifest. -/
def processLoop (resolve : Nat → Option UrlInfo) : List SongMeta → Nat → Nat × String
  | [], _ => (0, "")
  | s :: rest, i =>
    let tail := processLoop resolve rest (i + 1)
    match resolve i with
    | some info => (tail.1 + 1, append_song_to_file (mkSongInfo s info) i ++ tail.2)
    | none => tail

/-- Playlist object of the playlist detail endpoint, reduced to the
fields the source reads; an absent value models both a missing and an
empty (falsy) playlist dict. -/
structure PlaylistData where
  pname : Option String := none
  trackIds : List Nat := []
deriving DecidableEq, Repr

/-- Outcome of one playlist detail request: HTTP status, the numeric
code field and the playlist object, or a raised exception (timeouts and
connection errors behave like any other exception here). -/
inductive DetailOutcome where
  | resp (status : Nat) (code : Option Int) (playlist : Option PlaylistData)
  | raise (msg : String)
deriving DecidableEq, Repr

/-- Attempt loop of get_playlist_detail, recursing on the attempts
still allowed: status 404 and 403 and an empty playlist give up at
once, any other failure sleeps three seconds and retries until the
attempts run out.  Returns the playlist, the number of requests issued
and the sleeps in milliseconds. -/
def detailLoop (oracle : Nat → DetailOutcome) :
    Nat → Nat → List Nat → Option PlaylistData × Nat × List Nat
  | 0, n, sl => (none, n, sl)
  | remaining + 1, n, sl =>
    let retryOr : Option PlaylistData × Nat × List Nat :=
      if remaining > 0 then detailLoop oracle remaining (n + 1) (sl ++ [3000])
      else (none, n + 1, sl)
    match oracle n with
    | .raise _ => retryOr
    | .resp st code pl =>
      if st = 404 then (none, n + 1, sl)
      else if st = 403 then (none, n + 1, sl)
      else if st ≠ 200 then retryOr
      else if code = some 200 then
        match pl with
        | some p => (some p, n + 1, sl)
        | none => (none, n + 1, sl)
      else retryOr

/-- Model of NeteaseMusicDownloader.get_playlist_detail from
src/music_downloader.py, which sets max_retries to three. -/
def get_playlist_detail (oracle : Nat → DetailOutcome) :
    Option PlaylistData × Nat × List Nat :=
  detailLoop oracle 3 0 []

/-- Helper of chunks50 on explicit fuel, always called with at least
the list length. -/
def chunks50Aux {α : Type} : Nat → List α → List (List α)
  | 0, _ => []
  | fuel + 1, l =>
    match l with
    | [] => []
    | c :: rest => (c :: rest).take 50 :: chunks50Aux fuel ((c :: rest).drop 50)

/-- Split a list into consecutive chunks of fifty, the model of the
slice loop of get_playlist_tracks with its batch size of fifty. -/
def chunks50 {α : Type} (l : List α) : List (List α) :=
  chunks50Aux l.length l

/-- One step of chunks50Aux on positive fuel. -/
theorem chunks50Aux_step {α : Type} (fuel : Nat) (l : List α) :
    chunks50Aux (fuel + 1) l =
      match l with
      | [] => []
      | c :: rest => (c :: rest).take 50 :: chunks50Aux fuel ((c :: rest).drop 50) := by
  rfl

/-- Fuel at least the list length does not change chunks50Aux. -/
theorem chunks50Aux_fuel {α : Type} :
    ∀ (n : Nat) (f1 f2 : Nat) (l : List α), l.length ≤ n → l.length ≤ f1 →
      l.length ≤ f2 → chunks50Aux f1 l = chunks50Aux f2 l := by
  intro n
  induction n with
  | zero =>
    intro f1 f2 l hn h1 h2
    cases l with
    | nil => cases f1 <;> cases f2 <;> rfl
    | cons c t => simp at hn
  | succ m ih =>
    intro f1 f2 l hn h1 h2
    cases l with
    | nil => cases f1 <;> cases f2 <;> rfl
    | cons c t =>
      simp only [List.length_cons] at hn h1 h2
      cases f1 with
      | zero => omega
      | succ g1 =>
        cases f2 with
        | zero => omega
        | succ g2 =>
          rw [chunks50Aux_step, chunks50Aux_step]
          have hd : ((c :: t).drop 50).length ≤ m := by
            simp only [List.length_drop, List.length_cons]; omega
          show (c :: t).take 50 :: chunks50Aux g1 ((c :: t).drop 50) =
            (c :: t).take 50 :: chunks50Aux g2 ((c :: t).drop 50)
          rw [ih g1 g2 ((c :: t).drop 50) hd (by
            simp only [List.length_drop, List.length_cons]; omega) (by
            simp only [List.length_drop, List.length_cons]; omega)]

/-- Unfolding of chunks50 on a nonempty list. -/
theorem chunks50_cons {α : Type} (c : α) (t : List α) :
    chunks50 (c :: t) = (c :: t).take 50 :: chunks50 ((c :: t).drop 50) := by
  rw [chunks50, chunks50]
  show chunks50Aux (t.length + 1) (c :: t) = _
  rw [chunks50Aux_step]
  have hd : ((c :: t).drop 50).length ≤ t.length := by
    simp only [List.length_drop, List.length_cons]; omega
  show (c :: t).take 50 :: chunks50Aux t.length ((c :: t).drop 50) = _
  rw [chunks50Aux_fuel (t.length + 1) t.length ((c :: t).drop 50).length ((c :: t).drop 50)
    (by omega) (by omega) (by omega)]

/-- Outcome of one batch song detail request. -/
inductive BatchOutcome where
  | resp (status : Nat) (code : Option Int) (songs : List SongMeta)
  | raise (msg : String)
deriving DecidableEq, Repr

/-- Trace of the batch loop of get_playlist_tracks: requests issued and
sleeps in milliseconds. -/
structure TracksTrace where
  batchRequests : Nat := 0
  sleeps : List Nat := []
deriving DecidableEq, Repr

/-- Batch loop of get_playlist_tracks: one request per batch, never
retried.  A non-200 status skips the batch at once (the source
continues past the half-second sleep), an API code other than 200 skips
it after the sleep, a good batch extends the accumulated songs, and a
raised exception aborts the whole function (None here; the outer
handler of the source then returns the empty list). -/
def batchLoop (batch : Nat → BatchOutcome) :
    List (List Nat) → List SongMeta → TracksTrace → Option (List SongMeta) × TracksTrace
  | [], acc, tr => (some acc, tr)
  | _ :: rest, acc, tr =>
    let k := tr.batchRequests
    let tr1 := { tr with batchRequests := k + 1 }
    match batch k with
    | .raise _ => (none, tr1)
    | .resp st code songs =>
      if st ≠ 200 then batchLoop batch rest acc tr1
      else if code = some 200 then
        batchLoop batch rest (acc ++ songs) { tr1 with sleeps := tr1.sleeps ++ [500] }
      else batchLoop batch rest acc { tr1 with sleeps := tr1.sleeps ++ [500] }

/-- Model of NeteaseMusicDownloader.get_playlist_tracks from
src/music_downloader.py: one unretried playlist detail request yields
the track id list (any failure yields the empty list), the ids are cut
into batches of fifty, and the batch loop runs with one request per
batch. -/
def get_playlist_tracks (detail : DetailOutcome) (batch : Nat → BatchOutcome) :
    List SongMeta × TracksTrace :=
  match detail with
  | .raise _ => ([], {})
  | .resp st code pl =>
    if st ≠ 200 then ([], {})
    else if code ≠ some 200 then ([], {})
    else
      let ids := ((pl.map PlaylistData.trackIds).getD [])
      if ids = [] then ([], {})
      else
        match batchLoop batch (chunks50 ids) [] {} with
        | (some songs, tr) => (songs, tr)
        | (none, tr) => ([], tr)

/-- Atom of the concrete regular expression of parse_list_file: a
literal character, a captured greedy one-or-more over a character
class, an uncaptured greedy zero-or-more, or a captured lazy
one-or-more.  Every repetition of the source pattern ranges over a
one-character class, so a repetition can consume any count of
characters up to the maximal run of its class, greedy order trying the
longest count first and lazy order the shortest. -/
inductive RAtom where
  | lit (c : Char)
  | plusG (cls : Char → Bool)
  | starG (cls : Char → Bool)
  | plusL (cls : Char → Bool)

/-- Length of the maximal prefix whose characters satisfy a class. -/
def npfx (p : Char → Bool) : List Char → Nat
  | [] => 0
  | c :: rest => if p c then npfx p rest + 1 else 0

/-- Descending counts k, k-1, ..., 1. -/
def descPos : Nat → List Nat
  | 0 => []
  | k + 1 => (k + 1) :: descPos k

/-- Ascending counts 1, 2, ..., k. -/
def ascPos (k : Nat) : List Nat :=
  (descPos k).reverse

/-- Try consuming each count of characters in the given order and run
the continuation on the remainder, keeping the first success; when the
repetition is a capture group the consumed characters are recorded in
front of the groups of the continuation. -/
def tryEach (f : List Char → Option (List (List Char) × List Char)) (cap : Bool)
    (s : List Char) : List Nat → Option (List (List Char) × List Char)
  | [] => none
  | k :: ks =>
    match f (s.drop k) with
    | some (gs, rest) => some (if cap then s.take k :: gs else gs, rest)
    | none => tryEach f cap s ks

/-- Backtracking matcher for a sequence of atoms anchored at the head
of the input: the captured groups in order and the remainder after the
match. -/
def matchAtoms : List RAtom → List Char → Option (List (List Char) × List Char)
  | [], s => some ([], s)
  | .lit c :: as, s =>
    match s with
    | [] => none
    | x :: s2 => if x = c then matchAtoms as s2 else none
  | .starG p :: as, s => tryEach (matchAtoms as) false s (descPos (npfx p s) ++ [0])
  | .plusG p :: as, s => tryEach (matchAtoms as) true s (descPos (npfx p s))
  | .plusL p :: as, s => tryEach (matchAtoms as) true s (ascPos (npfx p s))

/-- Class of the regex dot, every character but a newline. -/
def dotCls (c : Char) : Bool :=
  c != '\n'

/-- Literal atoms of a fixed string. -/
def litsOf (s : String) : List RAtom :=
  s.data.map RAtom.lit

/-- Atom sequence of the song-block regular expression of
SongDownloader.parse_list_file, one atom per construct of the source
pattern in order. -/
def songPattern : List RAtom :=
  [.plusG pyDigit, .lit '.', .starG pyWsChar, .plusL dotCls, .starG pyWsChar,
   .lit '-', .starG pyWsChar, .plusL dotCls, .starG pyWsChar, .lit '\n',
   .starG pyWsChar] ++
  litsOf "歌曲ID:" ++
  [.starG pyWsChar, .plusG pyDigit, .starG pyWsChar, .lit '\n', .starG pyWsChar] ++
  litsOf "音质:" ++
  [.starG pyWsChar, .plusL dotCls, .starG pyWsChar, .lit '(', .plusG pyDigit] ++
  litsOf "kbps)" ++
  [.starG pyWsChar, .lit '\n', .starG pyWsChar] ++
  litsOf "直链:" ++
  [.starG pyWsChar, .plusL dotCls, .starG pyWsChar, .lit '\n', .starG pyWsChar] ++
  litsOf "大小:" ++
  [.starG pyWsChar, .plusG pyDigit, .starG pyWsChar] ++
  litsOf "bytes" ++
  [.starG pyWsChar, .lit '\n', .starG pyWsChar] ++
  litsOf "类型:" ++
  [.starG pyWsChar, .plusL dotCls, .starG pyWsChar, .lit '\n']

/-- Match of the song-block pattern at the head of the input. -/
def matchSong (s : List Char) : Option (List (List Char) × List Char) :=
  matchAtoms songPattern s

/-- Maximal run length is at most the input length. -/
theorem npfx_le_length (p : Char → Bool) : ∀ s : List Char, npfx p s ≤ s.length := by
  intro s
  induction s with
  | nil => simp [npfx]
  | cons c rest ih =>
    by_cases hc : p c
    · simp [npfx, hc]; omega
    · simp [npfx, hc]

/-- Inversion of tryEach: a success comes from one of the counts. -/
theorem tryEach_some (f : List Char → Option (List (List Char) × List Char))
    (cap : Bool) (s : List Char) :
    ∀ counts gs rest, tryEach f cap s counts = some (gs, rest) →
      ∃ k ∈ counts, ∃ gs2, f (s.drop k) = some (gs2, rest) ∧
        gs = if cap then s.take k :: gs2 else gs2 := by
  intro counts
  induction counts with
  | nil => intro gs rest h; simp [tryEach] at h
  | cons k ks ih =>
    intro gs rest h
    rw [tryEach] at h
    cases h2 : f (s.drop k) with
    | some pr =>
      rw [h2] at h
      obtain ⟨gs2, rest2⟩ := pr
      simp at h
      exact ⟨k, by simp, gs2, by rw [h2, h.2], by rw [← h.1]⟩
    | none =>
      rw [h2] at h
      obtain ⟨k2, hk2, gs2, h3, h4⟩ := ih gs rest h
      exact ⟨k2, by simp [hk2], gs2, h3, h4⟩

/-- Every count of descPos is positive. -/
theorem descPos_pos : ∀ n k : Nat, k ∈ descPos n → 1 ≤ k := by
  intro n
  induction n with
  | zero => intro k h; simp [descPos] at h
  | succ m ih =>
    intro k h
    rw [descPos] at h
    rcases List.mem_cons.mp h with h1 | h1
    · omega
    · exact ih k h1

/-- Every count of descPos is at most its bound. -/
theorem descPos_le : ∀ n k : Nat, k ∈ descPos n → k ≤ n := by
  intro n
  induction n with
  | zero => intro k h; simp [descPos] at h
  | succ m ih =>
    intro k h
    rw [descPos] at h
    rcases List.mem_cons.mp h with h1 | h1
    · omega
    · have := ih k h1; omega

/-- The remainder of a successful match is no longer than the input. -/
theorem matchAtoms_rest_le :
    ∀ (as : List RAtom) (s : List Char) (gs : List (List Char)) (rest : List Char),
      matchAtoms as s = some (gs, rest) → rest.length ≤ s.length := by
  intro as
  induction as with
  | nil =>
    intro s gs rest h
    simp [matchAtoms] at h
    simp [h.2]
  | cons a as ih =>
    intro s gs rest h
    have htry : ∀ cap counts, tryEach (matchAtoms as) cap s counts = some (gs, rest) →
        rest.length ≤ s.length := by
      intro cap counts h2
      obtain ⟨k, _, gs2, h3, _⟩ := tryEach_some (matchAtoms as) cap s counts gs rest h2
      have := ih (s.drop k) gs2 rest h3
      simp at this
      omega
    cases a with
    | lit c =>
      simp only [matchAtoms] at h
      cases s with
      | nil => simp at h
      | cons x s2 =>
        simp only at h
        by_cases hx : x = c
        · rw [if_pos hx] at h
          have := ih s2 gs rest h
          simp
          omega
        · rw [if_neg hx] at h; simp at h
    | plusG p => simp only [matchAtoms] at h; exact htry true _ h
    | starG p => simp only [matchAtoms] at h; exact htry false _ h
    | plusL p => simp only [matchAtoms] at h; exact htry true _ h

/-- A match starting with a greedy one-or-more consumes at least one
character. -/
theorem matchAtoms_plusG_consumes (p : Char → Bool) (as : List RAtom) (s : List Char)
    (gs : List (List Char)) (rest : List Char) :
    matchAtoms (.plusG p :: as) s = some (gs, rest) → rest.length < s.length := by
  intro h
  simp only [matchAtoms] at h
  obtain ⟨k, hk, gs2, h3, _⟩ := tryEach_some _ _ _ _ _ _ h
  have hk1 : 1 ≤ k := descPos_pos _ _ hk
  have hk2 : k ≤ npfx p s := descPos_le _ _ hk
  have hks : npfx p s ≤ s.length := npfx_le_length _ _
  have := matchAtoms_rest_le _ _ _ _ h3
  simp at this
  omega

/-- A match of the song-block pattern consumes at least one character. -/
theorem matchSong_consumes (s : List Char) (gs : List (List Char)) (rest : List Char) :
    matchSong s = some (gs, rest) → rest.length < s.length := by
  intro h
  rw [matchSong] at h
  have hsp : songPattern = RAtom.plusG pyDigit :: songPattern.tail := rfl
  rw [hsp] at h
  exact matchAtoms_plusG_consumes _ _ _ _ _ h

/-- Helper of findAll on explicit fuel; every step shortens the input,
so any fuel beyond the input length gives the same value. -/
def findAllAux : Nat → List Char → List (List (List Char))
  | 0, _ => []
  | fuel + 1, s =>
    match matchSong s with
    | some (gs, rest) => gs :: findAllAux fuel rest
    | none =>
      match s with
      | [] => []
      | _ :: t => findAllAux fuel t

/-- Scan of re.findall over the input: try a match at every position
from left to right, resuming after the end of each match. -/
def findAll (s : List Char) : List (List (List Char)) :=
  findAllAux (s.length + 1) s

/-- One step of findAllAux on positive fuel. -/
theorem findAllAux_step (fuel : Nat) (s : List Char) :
    findAllAux (fuel + 1) s =
      match matchSong s with
      | some (gs, rest) => gs :: findAllAux fuel rest
      | none =>
        match s with
        | [] => []
        | _ :: t => findAllAux fuel t := by
  rfl

/-- Fuel beyond the input length does not change findAllAux. -/
theorem findAllAux_fuel :
    ∀ (n : Nat) (f1 f2 : Nat) (s : List Char), s.length < n → s.length < f1 →
      s.length < f2 → findAllAux f1 s = findAllAux f2 s := by
  intro n
  induction n with
  | zero => intro f1 f2 s h; omega
  | succ m ih =>
    intro f1 f2 s hn h1 h2
    cases f1 with
    | zero => omega
    | succ g1 =>
      cases f2 with
      | zero => omega
      | succ g2 =>
        rw [findAllAux_step, findAllAux_step]
        cases hm : matchSong s with
        | some pr =>
          obtain ⟨gs, rest⟩ := pr
          have := matchSong_consumes s gs rest hm
          show gs :: findAllAux g1 rest = gs :: findAllAux g2 rest
          rw [ih g1 g2 rest (by omega) (by omega) (by omega)]
        | none =>
          cases s with
          | nil => rfl
          | cons c t =>
            simp only [List.length_cons] at hn h1 h2
            show findAllAux g1 t = findAllAux g2 t
            rw [ih g1 g2 t (by omega) (by omega) (by omega)]

/-- Unfolding of findAll on a successful match. -/
theorem findAll_match (s : List Char) (gs : List (List Char)) (rest : List Char)
    (h : matchSong s = some (gs, rest)) : findAll s = gs :: findAll rest := by
  rw [findAll, findAll, findAllAux_step, h]
  have := matchSong_consumes s gs rest h
  show gs :: findAllAux s.length rest = gs :: findAllAux (rest.length + 1) rest
  rw [findAllAux_fuel (s.length + 1) s.length (rest.length + 1) rest (by omega) (by omega)
    (by omega)]

/-- Unfolding of findAll when no match starts at the head. -/
theorem findAll_nomatch (c : Char) (t : List Char)
    (h : matchSong (c :: t) = none) : findAll (c :: t) = findAll t := by
  rw [findAll, findAll, findAllAux_step, h]
  show findAllAux (t.length + 1) t = _
  rfl

/-- Track record as parse_list_file builds it: the song id is kept as
the raw digit string and the text fields are stripped. -/
structure ParsedSong where
  index : Nat
  name : String
  artist : String
  song_id : String
  quality : String
  bitrate : Nat
  url : String
  size : Nat
  type : String
deriving DecidableEq, Repr

/-- Record dict built from the nine captured groups of one match, in
the order of the source. -/
def groupsToSong : List (List Char) → Option ParsedSong
  | [g1, g2, g3, g4, g5, g6, g7, g8, g9] =>
    some
      { index := digitsVal g1
        name := ⟨pyStripChars g2⟩
        artist := ⟨pyStripChars g3⟩
        song_id := ⟨g4⟩
        quality := ⟨pyStripChars g5⟩
        bitrate := digitsVal g6
        url := ⟨pyStripChars g7⟩
        size := digitsVal g8
        type := ⟨pyStripChars g9⟩ }
  | _ => none

/-- Model of SongDownloader.parse_list_file from src/download_songs.py
on a given file content: every match of the block pattern, in order,
turned into a record. -/
def parse_list_file (content : String) : List ParsedSong :=
  (findAll content.data).filterMap groupsToSong

/-- A network outcome that can never satisfy the success test of
download_song: any non-2xx status, or a raised exception. -/
def permanentFailure (o : NetOutcome) : Prop :=
  match o with
  | .resp r => r.status < 200 ∨ 300 ≤ r.status
  | .raise _ => True

/-- A song url outcome that takes the retry branch of get_song_url_v1:
a raised exception, a non-200 status, or a 200 response whose code is
not 200 or whose data array is missing or empty. -/
def urlRetryFailure (o : UrlOutcome) : Prop :=
  match o with
  | .raise _ => True
  | .resp r => r.status ≠ 200 ∨ ¬(r.code = some 200 ∧ r.data ≠ [])

/-- A playlist detail outcome that takes the retry branch of
get_playlist_detail: a raised exception, a status other than 404, 403
and 200, or a 200 response whose code is not 200. -/
def detailRetryFailure (o : DetailOutcome) : Prop :=
  match o with
  | .raise _ => True
  | .resp st code _ => st ≠ 404 ∧ st ≠ 403 ∧ (st ≠ 200 ∨ code ≠ some 200)

/-- Songs a single batch outcome contributes: its payload on a full
success, nothing otherwise. -/
def batchSongs : BatchOutcome → List SongMeta
  | .resp st code songs => if st = 200 ∧ code = some 200 then songs else []
  | .raise _ => []

/-- Songs accumulated over consecutive batch requests numbered from k. -/
def expectedBatchSongs (batch : Nat → BatchOutcome) : Nat → Nat → List SongMeta
  | _, 0 => []
  | k, n + 1 => batchSongs (batch k) ++ expectedBatchSongs batch (k + 1) n

/-- Sleeps of the batch loop over consecutive batch requests numbered
from k: a non-200 status skips the sleep, everything else sleeps half a
second. -/
def batchSleeps (batch : Nat → BatchOutcome) : Nat → Nat → List Nat
  | _, 0 => []
  | k, n + 1 =>
    (match batch k with
      | .resp st _ _ => if st ≠ 200 then [] else [500]
      | .raise _ => []) ++ batchSleeps batch (k + 1) n

/-- Character of a list at a position, as an option. -/
def charAt (s : List Char) (j : Nat) : Option Char :=
  (s.drop j).head?

/-- The head of a list, when present, breaks the class. -/
def headBreaks (p : Char → Bool) (t : List Char) : Prop :=
  ∀ c, t.head? = some c → p c = false

/-- The last element of a list, when present, breaks the class. -/
def lastBreaks (p : Char → Bool) (l : List Char) : Prop :=
  ∀ c, l.getLast? = some c → p c = false

/-- A manifest field the round trip can recover exactly: nonempty, free
of newlines, and not starting or ending in whitespace (whitespace at
the ends would be eaten by the regex and the strip). -/
def fieldSafe (l : List Char) : Bool :=
  !l.isEmpty && l.all (fun c => c != '\n') &&
    (match l.head? with | some c => !pyWsChar c | none => true) &&
    (match l.getLast? with | some c => !pyWsChar c | none => true)

/-- A safe track name additionally holds no dash: the lazy name group
of the regex otherwise splits the line at the first dash. -/
def nameSafe (l : List Char) : Bool :=
  fieldSafe l && l.all (fun c => c != '-')

/-- A safe quality tier additionally holds no opening parenthesis,
which would end the lazy quality group early. -/
def qualitySafe (l : List Char) : Bool :=
  fieldSafe l && l.all (fun c => c != '(')

/-- A record the manifest round trip recovers exactly. -/
def recordSafe (s : SongInfo) : Bool :=
  nameSafe s.name.data && fieldSafe s.artist.data && qualitySafe s.quality.data &&
    fieldSafe s.url.data && fieldSafe s.type.data

/-- Header fields that cannot fake the start of a record block: digit
free name and quality, dot free timestamp, no newlines anywhere. -/
def headerSafe (playlistName quality genTime : String) : Bool :=
  playlistName.data.all (fun c => !pyDigit c && c != '\n') &&
    quality.data.all (fun c => !pyDigit c && c != '\n') &&
    genTime.data.all (fun c => c != '.' && c != '\n')

/-- Part of one manifest block the regex matches, from the index digits
through the newline after the type line. -/
def blockHeadChars (song : SongInfo) (index : Nat) : List Char :=
  natChars index ++ ". ".data ++ song.name.data ++ " - ".data ++ song.artist.data ++
    "\n   歌曲ID: ".data ++ natChars song.song_id ++
    "\n   音质: ".data ++ song.quality.data ++ " (".data ++ natChars song.bitrate ++
    "kbps)\n   直链: ".data ++ song.url.data ++
    "\n   大小: ".data ++ natChars song.size ++ " bytes\n   类型: ".data ++
    song.type.data ++ "\n".data

/-- The four advisory lines and the blank line closing every block,
which the regex never matches into. -/
def trailerChars : List Char :=
  ("   下载说明: 此直链需要添加Referer请求头才能正常访问\n   推荐下载工具: IDM、Aria2、curl等支持自定义请求头的工具\n   必要请求头: Referer: https://music.163.com/\n   User-Agent: Mozilla/5.0 (Windows NT 10.0; Win64; x64) AppleWebKit/537.36\n\n" : String).data

/-- Captured groups of the block match of one record, in the order the
nine groups of the pattern produce them. -/
def expectedGroups : Nat → List SongInfo → List (List (List Char))
  | _, [] => []
  | i, s :: rest =>
    [natChars i, s.name.data, s.artist.data, natChars s.song_id, s.quality.data,
      natChars s.bitrate, s.url.data, natChars s.size, s.type.data] ::
      expectedGroups (i + 1) rest

/-- Record list parse_list_file recovers from a safe manifest, with
one-based indices. -/
def expectedParsed : Nat → List SongInfo → List ParsedSong
  | _, [] => []
  | i, s :: rest =>
    ⟨i, s.name, s.artist, natStr s.song_id, s.quality, s.bitrate, s.url, s.size,
      s.type⟩ :: expectedParsed (i + 1) rest

/-- Does the input start with one or more digits directly followed by a
dot, the only way the block pattern can begin a match. -/
def numDotAt (s : List Char) : Prop :=
  1 ≤ npfx pyDigit s ∧ charAt s (npfx pyDigit s) = some '.'

/-- After the leading digits and dot, a match must reach a dash: some
whitespace, then at least one non-newline character, then whitespace,
then a dash. -/
def dashReach (T : List Char) : Prop :=
  ∃ j1 k j2, (∀ i, i < j1 → ∃ c, charAt T i = some c ∧ pyWsChar c = true) ∧ 1 ≤ k ∧
    (∀ i, j1 ≤ i → i < j1 + k → ∃ c, charAt T i = some c ∧ c ≠ '\n') ∧
    (∀ i, j1 + k ≤ i → i < j1 + k + j2 → ∃ c, charAt T i = some c ∧ pyWsChar c = true) ∧
    charAt T (j1 + k + j2) = some '-'

/-- Does the list hold a digit directly followed by a dot anywhere. -/
def digitDotPair : List Char → Bool
  | c :: d :: rest => (pyDigit c && d = '.') || digitDotPair (d :: rest)
  | _ => false

/-! Theorems for the stated properties. -/

/-- C1: on the documented example URL of the source itself (printed as
示例链接 by both entry points), extract_playlist_id returns None rather
than the identifier 24381616: urlparse files the whole hash route under
the fragment, so the query is empty and the path is a lone slash. -/
theorem c1_documented_example_returns_none :
    extract_playlist_id "https://music.163.com/#/playlist?id=24381616" = none := by
  rfl

/-- C5: sanitize_filename replaces every forbidden character by an
underscore and truncates, so its output never holds a forbidden
character and never exceeds two hundred characters; the filename
download_song builds from index, name, artist and extension is an
instance of that output. -/
theorem c5_sanitize_filename_safe :
    ∀ s : String, (sanitize_filename s).length ≤ 200 ∧
      (∀ c ∈ (sanitize_filename s).data, illegalFilenameChar c = false) ∧
      (sanitize_filename s).data =
        (s.data.map (fun c => if illegalFilenameChar c then '_' else c)).take 200 := by
  intro s
  set repl := s.data.map (fun c => if illegalFilenameChar c then '_' else c) with hrepl
  have hmem : ∀ c ∈ repl, illegalFilenameChar c = false := by
    intro c hc
    rw [hrepl] at hc
    obtain ⟨c0, _, hc0⟩ := List.mem_map.mp hc
    by_cases hi : illegalFilenameChar c0
    · simp [hi] at hc0; rw [← hc0]; rfl
    · simp [hi] at hc0; rw [← hc0]; simpa using hi
  have hdata : (sanitize_filename s).data = repl.take 200 := by
    show (if repl.length > 200 then repl.take 200 else repl) = repl.take 200
    by_cases hl : repl.length > 200
    · rw [if_pos hl]
    · rw [if_neg hl, List.take_of_length_le (by omega)]
  refine ⟨?_, ?_, hdata⟩
  · show (sanitize_filename s).data.length ≤ 200
    rw [hdata, List.length_take]
    omega
  · intro c hc
    rw [hdata] at hc
    exact hmem c (List.take_subset 200 repl hc)

/-- Flattening the readlines split gives back the input. -/
theorem readlinesAux_flatten :
    ∀ (l acc : List Char), (readlinesAux l acc).flatten = acc.reverse ++ l := by
  intro l
  induction l with
  | nil =>
    intro acc
    by_cases ha : acc.isEmpty
    · simp [readlinesAux, ha, List.isEmpty_iff.mp ha]
    · simp [readlinesAux, ha]
  | cons c rest ih =>
    intro acc
    by_cases hc : c = '\n'
    · simp [readlinesAux, hc, ih]
    · simp [readlinesAux, hc, ih (c :: acc)]

/-- C8 (amended): whenever the computed header end does not pass the
line count — every file whose first separator line is not its last
line — update_file_summary rewrites the manifest to exactly the
previous content followed by the summary footer, the header lines and
record blocks written back unchanged and in order; and in every case,
including the IndexError path, the result is the previous content with
or without the footer, so no already-written block is altered or
lost. -/
theorem c8_update_file_summary_appends_footer (content : String) (total : Nat)
    (doneTime : String) :
    (headerEndOf content ≤ (pyReadlines content.data).length →
      update_file_summary content total doneTime =
        content ++ summaryFooter total doneTime) ∧
    (update_file_summary content total doneTime =
        content ++ summaryFooter total doneTime ∨
      update_file_summary content total doneTime = content) := by
  have hflat : ∀ k, ((pyReadlines content.data).take k).flatten ++
      ((pyReadlines content.data).drop k).flatten = content.data := by
    intro k
    rw [← List.flatten_append, List.take_append_drop]
    exact readlinesAux_flatten content.data []
  have hmain : headerEndOf content ≤ (pyReadlines content.data).length →
      update_file_summary content total doneTime =
        content ++ summaryFooter total doneTime := by
    intro hle
    rw [update_file_summary]
    rw [if_pos hle]
    cases content with
    | mk data =>
      show (⟨_⟩ : String) ++ _ = _
      have := hflat (headerEndOf ⟨data⟩)
      simp only at this ⊢
      rw [this]
  refine ⟨hmain, ?_⟩
  by_cases hle : headerEndOf content ≤ (pyReadlines content.data).length
  · exact Or.inl (hmain hle)
  · right
    rw [update_file_summary]
    rw [if_neg hle]
    rw [List.take_of_length_le (by omega)]
    cases content with
    | mk data =>
      show (⟨(readlinesAux data []).flatten⟩ : String) = (⟨data⟩ : String)
      rw [readlinesAux_flatten data []]
      rfl

/-- Witness for the amended footer rewrite at a manifest the program
itself writes, whose separator line is followed by the blank line. -/
theorem c8_update_file_summary_appends_footer_witness :
    headerEndOf (writeManifest "A" "B" "C" []) ≤
      (pyReadlines (writeManifest "A" "B" "C" []).data).length ∧
    update_file_summary (writeManifest "A" "B" "C" []) 0 "T" =
      writeManifest "A" "B" "C" [] ++ summaryFooter 0 "T" :=
  ⟨by decide,
    (c8_update_file_summary_appends_footer (writeManifest "A" "B" "C" []) 0 "T").1
      (by decide)⟩

/-- C8 counterexample: on a file whose first separator line is its last
line, the source writes every line back and then raises IndexError
before any footer write, so the file keeps its previous content and
gains no footer. -/
theorem c8_separator_last_line_drops_footer :
    update_file_summary ⟨eqLine ++ ['\n']⟩ 5 "2024-01-01 00:00:00" =
      (⟨eqLine ++ ['\n']⟩ : String) ∧
    (⟨eqLine ++ ['\n']⟩ : String) ≠
      ⟨eqLine ++ ['\n']⟩ ++ summaryFooter 5 "2024-01-01 00:00:00" := by
  constructor
  · rfl
  · decide

/-- C9: the interactive worker prompt yields three on empty input and
on input that is not a number, clamps a parsed value into one to ten
(below one becomes one, above ten becomes ten), always lands in that
range, and download_all_songs is run with exactly that value as its
pool size. -/
theorem c9_worker_count_clamped :
    parseWorkerCount "" = 3 ∧
    (∀ raw, pyIntOfString (if pyStrip raw = "" then "3" else pyStrip raw) = none →
      parseWorkerCount raw = 3) ∧
    (∀ raw v, pyIntOfString (if pyStrip raw = "" then "3" else pyStrip raw) = some v →
      (v < 1 → parseWorkerCount raw = 1) ∧ (10 < v → parseWorkerCount raw = 10) ∧
      (1 ≤ v → v ≤ 10 → parseWorkerCount raw = v.toNat)) ∧
    (∀ raw, 1 ≤ parseWorkerCount raw ∧ parseWorkerCount raw ≤ 10) ∧
    (∀ raw envOf songs, (mainDownloadRun raw envOf songs).workers = parseWorkerCount raw) := by
  have hbody : ∀ raw, parseWorkerCount raw =
      match pyIntOfString (if pyStrip raw = "" then "3" else pyStrip raw) with
      | some v => (max 1 (min 10 v)).toNat
      | none => 3 := by
    intro raw; rfl
  refine ⟨by rfl, ?_, ?_, ?_, ?_⟩
  · intro raw h; rw [hbody, h]
  · intro raw v h
    rw [hbody, h]
    refine ⟨fun h1 => ?_, fun h1 => ?_, fun h1 h2 => ?_⟩
    · show (max 1 (min 10 v)).toNat = 1
      have h2 : max 1 (min 10 v) = 1 := by
        rw [max_def, min_def]; split_ifs <;> omega
      rw [h2]; rfl
    · show (max 1 (min 10 v)).toNat = 10
      have h2 : max 1 (min 10 v) = 10 := by
        rw [max_def, min_def]; split_ifs <;> omega
      rw [h2]; rfl
    · show (max 1 (min 10 v)).toNat = v.toNat
      have h3 : max 1 (min 10 v) = v := by
        rw [max_def, min_def]; split_ifs <;> omega
      rw [h3]
  · intro raw
    rw [hbody]
    cases h : pyIntOfString (if pyStrip raw = "" then "3" else pyStrip raw) with
    | none =>
      show 1 ≤ 3 ∧ 3 ≤ 10
      omega
    | some v =>
      have hr : (1 : Int) ≤ max 1 (min 10 v) ∧ max 1 (min 10 v) ≤ 10 := by
        constructor
        · exact le_max_left 1 _
        · rw [max_def, min_def]; split_ifs <;> omega
      show 1 ≤ (max 1 (min 10 v)).toNat ∧ (max 1 (min 10 v)).toNat ≤ 10
      omega
  · intro raw envOf songs; rfl

/-- C9 witness: concrete prompt answers land where the clamp says. -/
theorem c9_worker_count_clamped_witness :
    parseWorkerCount "" = 3 ∧ parseWorkerCount " abc " = 3 ∧
    parseWorkerCount "15" = 10 ∧ parseWorkerCount "0" = 1 ∧ parseWorkerCount "7" = 7 := by
  refine ⟨c9_worker_count_clamped.1, ?_, ?_, ?_, ?_⟩
  · exact c9_worker_count_clamped.2.1 " abc " (by decide)
  · exact ((c9_worker_count_clamped.2.2.1 "15" 15 (by decide)).2.1 (by decide))
  · exact ((c9_worker_count_clamped.2.2.1 "0" 0 (by decide)).1 (by decide))
  · exact ((c9_worker_count_clamped.2.2.1 "7" 7 (by decide)).2.2 (by decide) (by decide))

/-- C3 (amended): when a file already exists at the computed target
path whose size differs from the expected size by strictly less than
1024 bytes, download_song returns True with an empty trace: zero
network requests, no sleeps, nothing written. -/
theorem c3_skip_within_strict_tolerance (env : DlEnv) (i : Nat)
    (nm ar sid q u ty : String) (br sz maxr : Nat)
    (hex : env.fileExistsAt ("downloads/" ++ sanitize_filename (buildFilename i nm ar ty)) = true)
    (hsz : natDist (env.fileSizeAt ("downloads/" ++ sanitize_filename (buildFilename i nm ar ty)))
      sz < 1024) :
    download_song env
      { index := some i, name := some nm, artist := some ar, song_id := some sid,
        quality := some q, bitrate := some br, url := some u, size := some sz,
        type := some ty } maxr = (.ok true, DlTrace.empty) := by
  rw [download_song]
  simp only [hex, hsz, if_true, if_pos]

/-- C3 witness: a concrete record whose target file is 100 bytes off is
skipped with no request at all. -/
theorem c3_skip_within_strict_tolerance_witness :
    download_song
      { fileExistsAt := fun _ => true, fileSizeAt := fun _ => 5100,
        net := fun _ => .resp { status := 500, contentLength := none, bodyLen := 0 },
        writeOk := fun _ => true }
      { index := some 1, name := some "a", artist := some "b", song_id := some "9",
        quality := some "standard", bitrate := some 320, url := some "http://u",
        size := some 5000, type := some "mp3" } 3 = (.ok true, DlTrace.empty) :=
  c3_skip_within_strict_tolerance
    { fileExistsAt := fun _ => true, fileSizeAt := fun _ => 5100,
      net := fun _ => .resp { status := 500, contentLength := none, bodyLen := 0 },
      writeOk := fun _ => true }
    1 "a" "b" "9" "standard" "http://u" "mp3" 320 5000 3 (by rfl) (by decide)

/-- C3 counterexample: at a size difference of exactly 1024 bytes the
claimed inclusive tolerance does not hold: the downloader issues its
three requests (failing here) instead of zero, and does not return
success. -/
theorem c3_boundary_difference_not_skipped :
    download_song
      { fileExistsAt := fun _ => true, fileSizeAt := fun _ => 6024,
        net := fun _ => .resp { status := 500, contentLength := none, bodyLen := 0 },
        writeOk := fun _ => true }
      { index := some 1, name := some "a", artist := some "b", song_id := some "9",
        quality := some "standard", bitrate := some 320, url := some "http://u",
        size := some 5000, type := some "mp3" } 3 =
      (.ok false, { requests := 3, sleeps := [2000, 2000], written := [] }) := by
  rfl

/-- On a permanently failing network, the retry loop issues one request
per remaining attempt, sleeps two seconds after every attempt but the
last, and ends with False. -/
theorem dlLoop_permanent_failure (env : DlEnv) (song : SongDict) (fp : String) (u : String)
    (hu : song.url = some u) (hfail : ∀ k, permanentFailure (env.net k)) :
    ∀ (remaining : Nat) (tr : DlTrace),
      dlLoop env song fp remaining tr =
        (false, ⟨tr.requests + remaining,
          tr.sleeps ++ List.replicate (remaining - 1) 2000, tr.written⟩) := by
  intro remaining
  induction remaining with
  | zero => intro tr; rw [dlLoop]; simp
  | succ r ih =>
    intro tr
    rw [dlLoop]
    simp only [hu]
    have hnet := hfail tr.requests
    have hbranch : ∀ (a : Nat) (sl : List Nat) (w : List (String × Nat)),
        (if r > 0 then dlLoop env song fp r ⟨a, sl ++ [2000], w⟩
          else (false, (⟨a, sl, w⟩ : DlTrace))) =
        (false, ⟨a + r, sl ++ List.replicate r 2000, w⟩) := by
      intro a sl w
      cases r with
      | zero => simp
      | succ r2 =>
        rw [if_pos (by omega), ih]
        simp [List.replicate_succ, List.append_assoc]
    cases hk : env.net tr.requests with
    | raise m =>
      rw [hbranch (tr.requests + 1) tr.sleeps tr.written]
      simp only [Prod.mk.injEq, DlTrace.mk.injEq, Nat.add_sub_cancel, true_and, and_true]
      omega
    | resp r2 =>
      rw [hk] at hnet
      rw [permanentFailure] at hnet
      have hb : (r2.status = 200 || r2.status = 206) = false := by
        simp only [Bool.or_eq_false_iff, decide_eq_false_iff_not]
        omega
      simp only [hb, Bool.false_eq_true, if_false]
      rw [hbranch (tr.requests + 1) tr.sleeps tr.written]
      simp only [Prod.mk.injEq, DlTrace.mk.injEq, Nat.add_sub_cancel, true_and, and_true]
      omega

/-- C4: when no file sits at the target path and every request comes
back with a non-2xx status or a raised network error, download_song
issues exactly max_retries requests (three by default), sleeps two
seconds between consecutive attempts (max_retries minus one sleeps),
writes nothing and returns False. -/
theorem c4_retry_bound_on_permanent_failure (env : DlEnv) (i : Nat)
    (nm ar sid q u ty : String) (br sz maxr : Nat)
    (hnofile : env.fileExistsAt
      ("downloads/" ++ sanitize_filename (buildFilename i nm ar ty)) = false)
    (hfail : ∀ k, permanentFailure (env.net k)) :
    download_song env
      { index := some i, name := some nm, artist := some ar, song_id := some sid,
        quality := some q, bitrate := some br, url := some u, size := some sz,
        type := some ty } maxr =
      (.ok false, ⟨maxr, List.replicate (maxr - 1) 2000, []⟩) := by
  rw [download_song]
  simp only [hnofile, Bool.false_eq_true, if_false]
  rw [dlLoop_permanent_failure env _ _ u rfl hfail maxr DlTrace.empty]
  show (Except.ok false, (⟨0 + maxr, [] ++ List.replicate (maxr - 1) 2000, []⟩ : DlTrace)) = _
  simp

/-- C4 witness: with the default three attempts against constant HTTP
500, exactly three requests and two sleeps happen before False. -/
theorem c4_retry_bound_on_permanent_failure_witness :
    download_song
      { fileExistsAt := fun _ => false, fileSizeAt := fun _ => 0,
        net := fun _ => .resp { status := 500, contentLength := none, bodyLen := 0 },
        writeOk := fun _ => true }
      { index := some 1, name := some "a", artist := some "b", song_id := some "9",
        quality := some "standard", bitrate := some 320, url := some "http://u",
        size := some 5000, type := some "mp3" } 3 =
      (.ok false, ⟨3, [2000, 2000], []⟩) := by
  have h := c4_retry_bound_on_permanent_failure
    { fileExistsAt := fun _ => false, fileSizeAt := fun _ => 0,
      net := fun _ => .resp { status := 500, contentLength := none, bodyLen := 0 },
      writeOk := fun _ => true }
    1 "a" "b" "9" "standard" "http://u" "mp3" 320 5000 3 (by rfl)
    (fun k => by right; decide)
  rw [h]
  rfl

/-- C10 (amended): download_song returns a plain boolean for every
record that carries the index field, whatever the other fields, the
filesystem and the network do: every failure path inside is caught.  A
record without index instead raises from the logging of the outer
handler, which is the counterexample theorem. -/
theorem c10_download_song_total_with_index (env : DlEnv) (song : SongDict)
    (maxr i : Nat) (hidx : song.index = some i) :
    ∃ b : Bool, (download_song env song maxr).1 = .ok b := by
  rw [download_song, hidx]
  cases hnm : song.name with
  | none => exact ⟨false, rfl⟩
  | some nm =>
    cases har : song.artist with
    | none => exact ⟨false, rfl⟩
    | some ar =>
      cases hty : song.type with
      | none => exact ⟨false, rfl⟩
      | some ty =>
        simp only
        split
        · cases hsz : song.size with
          | none => exact ⟨false, rfl⟩
          | some sz =>
            simp only
            split
            · exact ⟨true, rfl⟩
            · exact ⟨_, rfl⟩
        · exact ⟨_, rfl⟩

/-- C10 witness: a record with an index but no url never raises; here
the three attempts all fail on the missing url and the call returns a
boolean. -/
theorem c10_download_song_total_with_index_witness :
    ∃ b : Bool,
      (download_song
        { fileExistsAt := fun _ => false, fileSizeAt := fun _ => 0,
          net := fun _ => .raise "boom", writeOk := fun _ => true }
        { index := some 1, name := some "a", artist := some "b", type := some "mp3" }
        3).1 = .ok b :=
  c10_download_song_total_with_index
    { fileExistsAt := fun _ => false, fileSizeAt := fun _ => 0,
      net := fun _ => .raise "boom", writeOk := fun _ => true }
    { index := some 1, name := some "a", artist := some "b", type := some "mp3" }
    3 1 (by rfl)

/-- C10 counterexample: on a record with no fields at all (in
particular no index), download_song raises KeyError from its own
exception handler instead of returning False, because the handler
formats the message with the index key. -/
theorem c10_missing_index_raises :
    download_song
      { fileExistsAt := fun _ => false, fileSizeAt := fun _ => 0,
        net := fun _ => .raise "boom", writeOk := fun _ => true }
      {} 3 = (.error (.keyError "index"), DlTrace.empty) := by
  rfl

/-- C6 counterexample: a first response that is well formed except for
a missing url makes get_song_url_v1 return None after one single
request, with no retry, even though a second attempt would have
returned a good link: the empty-url branch of the source returns at
once instead of retrying. -/
theorem c6_empty_url_not_retried :
    get_song_url_v1
      (fun k =>
        if k = 0 then
          .resp { status := 200, code := some 200, data := [{ url := none }] }
        else
          .resp ⟨200, some 200,
            [⟨some "http://good", some 320, some 1000, some "mp3"⟩]⟩)
      7 "standard" = (none, 1, []) := by
  rfl

/-- C6 (amended): get_song_url_v1 makes at most two attempts in total:
a retryable failure (HTTP failure, API error code, or a missing or
empty data array) on both attempts gives None with exactly two requests
and one half-second sleep; a well-formed 200 response whose first entry
has a missing or empty url gives None at once without a retry; and the
caller loop of process_playlist drops a failed track and goes on with
the remaining tracks, while a resolved track appends its block and
bumps the count. -/
theorem c6_url_resolver_retry_and_caller :
    (∀ (oracle : Nat → UrlOutcome) (sid : Nat) (level : String),
      urlRetryFailure (oracle 0) → urlRetryFailure (oracle 1) →
      get_song_url_v1 oracle sid level = (none, 2, [500])) ∧
    (∀ (oracle : Nat → UrlOutcome) (sid : Nat) (level : String) (r : UrlApiResp)
      (sd : UrlPayload) (tl : List UrlPayload),
      oracle 0 = .resp r → r.status = 200 → r.code = some 200 → r.data = sd :: tl →
      (sd.url = none ∨ sd.url = some "") →
      get_song_url_v1 oracle sid level = (none, 1, [])) ∧
    (∀ (resolve : Nat → Option UrlInfo) (s : SongMeta) (rest : List SongMeta) (i : Nat),
      resolve i = none →
      processLoop resolve (s :: rest) i = processLoop resolve rest (i + 1)) ∧
    (∀ (resolve : Nat → Option UrlInfo) (s : SongMeta) (rest : List SongMeta) (i : Nat)
      (info : UrlInfo), resolve i = some info →
      processLoop resolve (s :: rest) i =
        ((processLoop resolve rest (i + 1)).1 + 1,
          append_song_to_file (mkSongInfo s info) i ++ (processLoop resolve rest (i + 1)).2)) := by
  have hstep : ∀ (oracle : Nat → UrlOutcome) (sid : Nat) (level : String)
      (remaining n : Nat) (sl : List Nat), urlRetryFailure (oracle n) →
      urlLoop oracle sid level (remaining + 1) n sl =
        (if remaining > 0 then urlLoop oracle sid level remaining (n + 1) (sl ++ [500])
          else (none, n + 1, sl)) := by
    intro oracle sid level remaining n sl hf
    rw [urlLoop]
    split
    · rfl
    · rename_i r2 heq
      rw [heq] at hf
      rw [urlRetryFailure] at hf
      by_cases hs : r2.status = 200
      · have hcd : ¬(r2.code = some 200 ∧ r2.data ≠ []) := by tauto
        rw [if_neg (show ¬r2.status ≠ 200 from by omega), if_neg hcd]
      · rw [if_pos (show r2.status ≠ 200 from hs)]
  refine ⟨?_, ?_, ?_, ?_⟩
  · intro oracle sid level h0 h1
    rw [get_song_url_v1, hstep oracle sid level 1 0 [] h0, if_pos (by omega)]
    show urlLoop oracle sid level 1 1 [500] = (none, 2, [500])
    rw [hstep oracle sid level 0 1 [500] h1, if_neg (by omega)]
  · intro oracle sid level r sd tl h0 hs hc hd hu
    rw [get_song_url_v1, urlLoop]
    simp only [h0, hs, hc, hd]
    rcases hu with hu | hu <;> simp only [hu] <;> rfl
  · intro resolve s rest i h
    rw [processLoop, h]
  · intro resolve s rest i info h
    rw [processLoop, h]

/-- C6 witness: constant HTTP 500 exhausts both attempts; a dropped
track leaves the tail of the caller loop unchanged. -/
theorem c6_url_resolver_retry_witness :
    get_song_url_v1 (fun _ => .resp { status := 500 }) 7 "standard" = (none, 2, [500]) ∧
    processLoop (fun _ => none) [⟨5, "nm", ["ar"]⟩] 1 =
      processLoop (fun _ => none) [] 2 := by
  constructor
  · exact c6_url_resolver_retry_and_caller.1 (fun _ => .resp { status := 500 }) 7 "standard"
      (by left; decide) (by left; decide)
  · exact c6_url_resolver_retry_and_caller.2.2.1 (fun _ => none) ⟨5, "nm", ["ar"]⟩ [] 1 rfl

/-- Concatenating the 50-chunks gives back the id list. -/
theorem chunks50_flatten_of_le {α : Type} :
    ∀ (n : Nat) (l : List α), l.length ≤ n → (chunks50 l).flatten = l := by
  intro n
  induction n with
  | zero =>
    intro l h
    cases l with
    | nil => rfl
    | cons c t => simp at h
  | succ m ih =>
    intro l h
    cases l with
    | nil => rfl
    | cons c t =>
      have hd : ((c :: t).drop 50).length ≤ m := by
        simp only [List.length_drop, List.length_cons]
        simp only [List.length_cons] at h
        omega
      rw [chunks50_cons, List.flatten_cons, ih ((c :: t).drop 50) hd]
      exact List.take_append_drop 50 (c :: t)

/-- Every 50-chunk is nonempty and holds at most fifty elements. -/
theorem chunks50_sizes_of_le {α : Type} :
    ∀ (n : Nat) (l : List α), l.length ≤ n →
      ∀ b ∈ chunks50 l, b ≠ [] ∧ b.length ≤ 50 := by
  intro n
  induction n with
  | zero =>
    intro l h b hb
    cases l with
    | nil => simp [chunks50, chunks50Aux] at hb
    | cons c t => simp at h
  | succ m ih =>
    intro l h b hb
    cases l with
    | nil => simp [chunks50, chunks50Aux] at hb
    | cons c t =>
      have hd : ((c :: t).drop 50).length ≤ m := by
        simp only [List.length_drop, List.length_cons]
        simp only [List.length_cons] at h
        omega
      rw [chunks50_cons] at hb
      rcases List.mem_cons.mp hb with hb1 | hb1
      · subst hb1
        refine ⟨by simp, ?_⟩
        rw [List.length_take]
        omega
      · exact ih ((c :: t).drop 50) hd b hb1

/-- The chunk list is empty exactly on the empty input. -/
theorem chunks50_eq_nil {α : Type} (l : List α) : chunks50 l = [] ↔ l = [] := by
  cases l with
  | nil => simp [chunks50, chunks50Aux]
  | cons c t => rw [chunks50_cons]; simp

/-- Every 50-chunk except possibly the last holds exactly fifty
elements. -/
theorem chunks50_full_of_le {α : Type} :
    ∀ (n : Nat) (l : List α), l.length ≤ n →
      ∀ j, j + 1 < (chunks50 l).length →
        ∃ b, (chunks50 l)[j]? = some b ∧ b.length = 50 := by
  intro n
  induction n with
  | zero =>
    intro l h j hj
    cases l with
    | nil => simp [chunks50, chunks50Aux] at hj
    | cons c t => simp at h
  | succ m ih =>
    intro l h j hj
    cases l with
    | nil => simp [chunks50, chunks50Aux] at hj
    | cons c t =>
      have hd : ((c :: t).drop 50).length ≤ m := by
        simp only [List.length_drop, List.length_cons]
        simp only [List.length_cons] at h
        omega
      rw [chunks50_cons] at hj ⊢
      cases j with
      | zero =>
        refine ⟨(c :: t).take 50, by simp, ?_⟩
        have hlen : 1 ≤ (chunks50 ((c :: t).drop 50)).length := by
          simp only [List.length_cons] at hj
          omega
        have hne : (c :: t).drop 50 ≠ [] := by
          intro hcon
          rw [← chunks50_eq_nil ((c :: t).drop 50)] at hcon
          rw [hcon] at hlen
          simp at hlen
        have hlong : 50 < (c :: t).length := by
          by_contra hle
          exact hne (List.drop_eq_nil_of_le (by omega))
        rw [List.length_take]
        omega
      | succ j2 =>
        simp only [List.getElem?_cons_succ]
        refine ih ((c :: t).drop 50) hd j2 ?_
        simp only [List.length_cons] at hj
        omega

/-- On a raise-free batch oracle the batch loop issues exactly one
request per batch, keeps the songs of the successful batches in order,
drops the failed ones, and sleeps half a second after every batch whose
status was 200. -/
theorem batchLoop_no_raise (batch : Nat → BatchOutcome)
    (hnr : ∀ k m, batch k ≠ .raise m) :
    ∀ (bs : List (List Nat)) (acc : List SongMeta) (tr : TracksTrace),
      batchLoop batch bs acc tr =
        (some (acc ++ expectedBatchSongs batch tr.batchRequests bs.length),
          ⟨tr.batchRequests + bs.length,
            tr.sleeps ++ batchSleeps batch tr.batchRequests bs.length⟩) := by
  intro bs
  induction bs with
  | nil =>
    intro acc tr
    rw [batchLoop]
    simp [expectedBatchSongs, batchSleeps]
  | cons b rest ih =>
    intro acc tr
    rw [batchLoop]
    cases hk : batch tr.batchRequests with
    | raise m => exact absurd hk (hnr _ m)
    | resp st code songs =>
      rw [List.length_cons, expectedBatchSongs, batchSleeps, hk]
      simp only []
      by_cases hst : st = 200
      · subst hst
        have hne : ¬(200 ≠ 200) := by simp
        by_cases hcd : code = some 200
        · rw [if_neg hne, if_pos hcd, ih, batchSongs, if_pos (⟨by trivial, hcd⟩), if_neg hne]
          simp only [Prod.mk.injEq, TracksTrace.mk.injEq, Option.some.injEq]
          refine ⟨by simp [List.append_assoc], by omega, by simp [List.append_assoc]⟩
        · rw [if_neg hne, if_neg hcd, ih, batchSongs, if_neg (by tauto), if_neg hne]
          simp only [Prod.mk.injEq, TracksTrace.mk.injEq, Option.some.injEq]
          refine ⟨by simp, by omega, by simp [List.append_assoc]⟩
      · rw [if_pos hst, ih, batchSongs, if_neg (by tauto), if_pos hst]
        simp only [Prod.mk.injEq, TracksTrace.mk.injEq, Option.some.injEq]
        refine ⟨by simp, by omega, by simp⟩

/-- On a permanently failing oracle the detail loop spends every
remaining attempt, sleeping three seconds between consecutive ones. -/
theorem detailLoop_permanent_failure (oracle : Nat → DetailOutcome)
    (hfail : ∀ k, detailRetryFailure (oracle k)) :
    ∀ (remaining n : Nat) (sl : List Nat),
      detailLoop oracle remaining n sl =
        (none, n + remaining, sl ++ List.replicate (remaining - 1) 3000) := by
  intro remaining
  induction remaining with
  | zero => intro n sl; rw [detailLoop]; simp
  | succ r ih =>
    intro n sl
    rw [detailLoop]
    have hstep :
        (if r > 0 then detailLoop oracle r (n + 1) (sl ++ [3000]) else (none, n + 1, sl)) =
          (none, n + (r + 1), sl ++ List.replicate (r + 1 - 1) 3000) := by
      cases r with
      | zero => simp
      | succ r2 =>
        rw [if_pos (by omega), ih]
        simp only [Prod.mk.injEq]
        refine ⟨by trivial, by omega, by simp [List.replicate_succ, List.append_assoc]⟩
    split
    · exact hstep
    · rename_i st code pl heq
      have hf := hfail n
      rw [heq] at hf
      rw [detailRetryFailure] at hf
      obtain ⟨h404, h403, hrest⟩ := hf
      rw [if_neg h404, if_neg h403]
      rcases hrest with hs | hc
      · rw [if_pos hs]
        exact hstep
      · by_cases hs : st = 200
        · rw [if_neg (show ¬st ≠ 200 from by omega), if_neg hc]
          exact hstep
        · rw [if_pos hs]
          exact hstep

/-- C7: track metadata is fetched in batches of exactly fifty ids (the
chunks reassemble to the id list, every chunk has at most fifty ids and
all but the last exactly fifty); on a good playlist detail response the
batch loop sends one unretried request per batch and the resulting song
list keeps the successful batches in order while a failed batch
contributes nothing; and get_playlist_detail alone retries, spending
its three attempts with two three-second sleeps when every attempt
fails retryably. -/
theorem c7_batching_and_detail_retry :
    (∀ (ids : List Nat), (chunks50 ids).flatten = ids ∧
      (∀ b ∈ chunks50 ids, b ≠ [] ∧ b.length ≤ 50) ∧
      (∀ j, j + 1 < (chunks50 ids).length →
        ∃ b, (chunks50 ids)[j]? = some b ∧ b.length = 50)) ∧
    (∀ (p : PlaylistData) (batch : Nat → BatchOutcome),
      p.trackIds ≠ [] → (∀ k m, batch k ≠ .raise m) →
      get_playlist_tracks (.resp 200 (some 200) (some p)) batch =
        (expectedBatchSongs batch 0 (chunks50 p.trackIds).length,
          ⟨(chunks50 p.trackIds).length,
            batchSleeps batch 0 (chunks50 p.trackIds).length⟩)) ∧
    (∀ (oracle : Nat → DetailOutcome), (∀ k, detailRetryFailure (oracle k)) →
      get_playlist_detail oracle = (none, 3, [3000, 3000])) := by
  refine ⟨?_, ?_, ?_⟩
  · intro ids
    exact ⟨chunks50_flatten_of_le ids.length ids le_rfl,
      chunks50_sizes_of_le ids.length ids le_rfl,
      chunks50_full_of_le ids.length ids le_rfl⟩
  · intro p batch hne hnr
    rw [get_playlist_tracks]
    show (if p.trackIds = [] then (([] : List SongMeta), ({} : TracksTrace)) else
      match batchLoop batch (chunks50 p.trackIds) [] {} with
      | (some songs, tr) => (songs, tr)
      | (none, tr) => ([], tr)) = _
    rw [if_neg hne, batchLoop_no_raise batch hnr (chunks50 p.trackIds) [] {}]
    show (([] : List SongMeta) ++ expectedBatchSongs batch 0 (chunks50 p.trackIds).length,
      (⟨0 + (chunks50 p.trackIds).length,
        [] ++ batchSleeps batch 0 (chunks50 p.trackIds).length⟩ : TracksTrace)) = _
    simp
  · intro oracle hfail
    rw [get_playlist_detail, detailLoop_permanent_failure oracle hfail 3 0 []]
    rfl

/-- C7 witness: a three-id playlist gives one batch whose one request
succeeds, and a constantly failing detail endpoint spends its three
attempts with two three-second sleeps. -/
theorem c7_batching_and_detail_retry_witness :
    get_playlist_tracks (.resp 200 (some 200) (some ⟨some "pl", [1, 2, 3]⟩))
      (fun k => if k = 0 then .resp 200 (some 200) [⟨1, "a", ["x"]⟩] else .resp 500 none []) =
      ([⟨1, "a", ["x"]⟩], ⟨1, [500]⟩) ∧
    get_playlist_detail (fun _ => .resp 500 none none) = (none, 3, [3000, 3000]) := by
  constructor
  · have h := c7_batching_and_detail_retry.2.1 ⟨some "pl", [1, 2, 3]⟩
      (fun k => if k = 0 then .resp 200 (some 200) [⟨1, "a", ["x"]⟩] else .resp 500 none [])
      (by decide) (by
        intro k m
        by_cases hk : k = 0 <;> simp [hk])
    rw [h]
    rfl
  · exact c7_batching_and_detail_retry.2.2 (fun _ => .resp 500 none none)
      (fun k => ⟨by decide, by decide, Or.inl (by decide)⟩)

/-! Auxiliary lemmas on positions, class runs and the matcher, used by
the manifest round-trip proof. -/

/-- Dropping distributes over append below the length of the left part. -/
theorem drop_append_le {α : Type} :
    ∀ (u v : List α) (k : Nat), k ≤ u.length → (u ++ v).drop k = u.drop k ++ v := by
  intro u
  induction u with
  | nil =>
    intro v k h
    have hk : k = 0 := by simpa using h
    subst hk
    rfl
  | cons c t ih =>
    intro v k h
    cases k with
    | zero => rfl
    | succ k2 =>
      simp only [List.cons_append, List.drop_succ_cons]
      exact ih v k2 (by simp at h; omega)

/-- Taking distributes over append below the length of the left part. -/
theorem take_append_le {α : Type} :
    ∀ (u v : List α) (k : Nat), k ≤ u.length → (u ++ v).take k = u.take k := by
  intro u
  induction u with
  | nil =>
    intro v k h
    have hk : k = 0 := by simpa using h
    subst hk
    rfl
  | cons c t ih =>
    intro v k h
    cases k with
    | zero => rfl
    | succ k2 =>
      simp only [List.cons_append, List.take_succ_cons]
      rw [ih v k2 (by simp at h; omega)]

/-- A position inside the left part reads from the left part. -/
theorem charAt_append_left {u v : List Char} {j : Nat} (h : j < u.length) :
    charAt (u ++ v) j = charAt u j := by
  rw [charAt, charAt, drop_append_le u v j (by omega)]
  cases hd : u.drop j with
  | nil =>
    have hlen := congrArg List.length hd
    simp only [List.length_drop, List.length_nil] at hlen
    omega
  | cons c t => simp

/-- A character read at some position belongs to the list. -/
theorem charAt_mem {s : List Char} {j : Nat} {c : Char} (h : charAt s j = some c) :
    c ∈ s := by
  rw [charAt] at h
  have h2 : c ∈ s.drop j := by
    cases hd : s.drop j with
    | nil => rw [hd] at h; simp at h
    | cons x t =>
      rw [hd] at h
      simp only [List.head?_cons, Option.some.injEq] at h
      rw [← h]
      simp
  exact List.mem_of_mem_drop h2

/-- Reading at shifted position after a drop. -/
theorem charAt_drop (s : List Char) (a j : Nat) :
    charAt (s.drop a) j = charAt s (a + j) := by
  rw [charAt, charAt, List.drop_drop]

/-- The last character read positionally. -/
theorem charAt_getLast {u : List Char} (h : u ≠ []) :
    charAt u (u.length - 1) = u.getLast? := by
  induction u with
  | nil => simp at h
  | cons c t ih =>
    cases t with
    | nil => rfl
    | cons d t2 =>
      rw [List.getLast?_cons_cons]
      rw [← ih (by simp)]
      simp only [List.length_cons]
      rw [charAt, charAt]
      rw [show t2.length + 1 + 1 - 1 = (t2.length + 1 - 1) + 1 from by omega,
        List.drop_succ_cons]

/-- Run length over a conforming prefix followed by a breaking head. -/
theorem npfx_run {p : Char → Bool} :
    ∀ (w t : List Char), (∀ c ∈ w, p c = true) → headBreaks p t →
      npfx p (w ++ t) = w.length := by
  intro w
  induction w with
  | nil =>
    intro t hw ht
    cases t with
    | nil => rfl
    | cons c t2 =>
      rw [List.nil_append, npfx, ht c rfl]
      rfl
  | cons c w2 ih =>
    intro t hw ht
    rw [List.cons_append, npfx, hw c (by simp), ih t (fun d hd => hw d (by simp [hd])) ht]
    simp

/-- Run length is at least the length of a conforming prefix. -/
theorem npfx_ge {p : Char → Bool} :
    ∀ (w t : List Char), (∀ c ∈ w, p c = true) → w.length ≤ npfx p (w ++ t) := by
  intro w
  induction w with
  | nil => intro t hw; simp
  | cons c w2 ih =>
    intro t hw
    rw [List.cons_append, npfx, hw c (by simp)]
    have := ih t (fun d hd => hw d (by simp [hd]))
    simp only [if_true, List.length_cons]
    omega

/-- Characters before the run end satisfy the class. -/
theorem npfx_charAt_lt {p : Char → Bool} :
    ∀ (s : List Char) (j : Nat), j < npfx p s → ∃ c, charAt s j = some c ∧ p c = true := by
  intro s
  induction s with
  | nil => intro j h; rw [npfx] at h; omega
  | cons c t ih =>
    intro j h
    rw [npfx] at h
    by_cases hc : p c
    · rw [if_pos hc] at h
      cases j with
      | zero => exact ⟨c, rfl, hc⟩
      | succ j2 =>
        obtain ⟨d, hd1, hd2⟩ := ih j2 (by omega)
        exact ⟨d, hd1, hd2⟩
    · rw [if_neg hc] at h; omega

/-- The character right after the run, when present, breaks the class. -/
theorem npfx_charAt_stop {p : Char → Bool} :
    ∀ (s : List Char) (c : Char), charAt s (npfx p s) = some c → p c = false := by
  intro s
  induction s with
  | nil => intro c h; rw [charAt] at h; simp at h
  | cons x t ih =>
    intro c h
    rw [npfx] at h
    by_cases hx : p x
    · rw [if_pos hx] at h
      exact ih c h
    · rw [if_neg hx] at h
      rw [charAt] at h
      simp at h
      rw [← h]
      simpa using hx

/-- With a nonempty left part whose last character breaks the class,
the run ends strictly inside the left part. -/
theorem npfx_lt_of_last {p : Char → Bool} :
    ∀ (G t : List Char), G ≠ [] → lastBreaks p G → npfx p (G ++ t) < G.length := by
  intro G
  induction G with
  | nil => intro t h; simp at h
  | cons c G2 ih =>
    intro t hne hlast
    cases G2 with
    | nil =>
      rw [List.cons_append, npfx, hlast c rfl]
      simp
    | cons d G3 =>
      rw [List.cons_append, npfx]
      by_cases hc : p c
      · rw [if_pos hc]
        have h2 := ih t (by simp) (by
          intro e he
          exact hlast e (by rw [List.getLast?_cons_cons]; exact he))
        simp only [List.length_cons] at h2 ⊢
        omega
      · rw [if_neg hc]
        simp

/-- A tryEach over counts that all fail gives nothing. -/
theorem tryEach_none (f : List Char → Option (List (List Char) × List Char)) (cap : Bool)
    (s : List Char) :
    ∀ counts, (∀ k ∈ counts, f (s.drop k) = none) → tryEach f cap s counts = none := by
  intro counts
  induction counts with
  | nil => intro h; rfl
  | cons k ks ih =>
    intro h
    rw [tryEach, h k (by simp)]
    exact ih (fun k2 hk2 => h k2 (by simp [hk2]))

/-- The first succeeding count decides the tryEach result. -/
theorem tryEach_first (f : List Char → Option (List (List Char) × List Char)) (cap : Bool)
    (s : List Char) (k0 : Nat) (counts2 : List Nat) (gs : List (List Char)) (r : List Char) :
    ∀ counts1, (∀ k ∈ counts1, f (s.drop k) = none) → f (s.drop k0) = some (gs, r) →
      tryEach f cap s (counts1 ++ k0 :: counts2) =
        some (if cap then s.take k0 :: gs else gs, r) := by
  intro counts1
  induction counts1 with
  | nil =>
    intro _ h2
    rw [List.nil_append, tryEach, h2]
  | cons k ks ih =>
    intro h1 h2
    rw [List.cons_append, tryEach, h1 k (by simp)]
    exact ih (fun k2 hk2 => h1 k2 (by simp [hk2])) h2

/-- Splitting the ascending counts at a chosen count. -/
theorem ascPos_split :
    ∀ (N k0 : Nat), 1 ≤ k0 → k0 ≤ N →
      ∃ suffix, ascPos N = ascPos (k0 - 1) ++ k0 :: suffix := by
  intro N
  induction N with
  | zero => intro k0 h1 h2; omega
  | succ m ih =>
    intro k0 h1 h2
    by_cases hm : k0 = m + 1
    · subst hm
      refine ⟨[], ?_⟩
      rw [ascPos, descPos, List.reverse_cons, ← ascPos]
      norm_num
    · obtain ⟨suf, hsuf⟩ := ih k0 h1 (by omega)
      refine ⟨suf ++ [m + 1], ?_⟩
      rw [ascPos, descPos, List.reverse_cons, ← ascPos, hsuf]
      simp

/-- Membership in the ascending counts. -/
theorem mem_ascPos {k N : Nat} (h : k ∈ ascPos N) : 1 ≤ k ∧ k ≤ N := by
  rw [ascPos, List.mem_reverse] at h
  exact ⟨descPos_pos N k h, descPos_le N k h⟩

/-- A literal atom fails when the head is absent or different. -/
theorem matchAtoms_lit_none {c : Char} {as : List RAtom} {s : List Char}
    (h : ∀ d, s.head? = some d → d ≠ c) : matchAtoms (.lit c :: as) s = none := by
  cases s with
  | nil => rfl
  | cons x t =>
    show (if x = c then matchAtoms as t else none) = none
    rw [if_neg (h x rfl)]

/-- A literal atom consumes its character. -/
theorem matchAtoms_lit_cons (c : Char) (as : List RAtom) (s : List Char) :
    matchAtoms (.lit c :: as) (c :: s) = matchAtoms as s := by
  show (if c = c then matchAtoms as s else none) = matchAtoms as s
  rw [if_pos rfl]

/-- A successful literal atom pins the head character. -/
theorem matchAtoms_lit_some_head {c : Char} {as : List RAtom} {s : List Char}
    {res : List (List Char) × List Char} (h : matchAtoms (.lit c :: as) s = some res) :
    s.head? = some c := by
  cases s with
  | nil => exact absurd h (by simp [matchAtoms])
  | cons x t =>
    by_cases hx : x = c
    · rw [hx]
      rfl
    · have h2 : matchAtoms (.lit c :: as) (x :: t) = none := by
        show (if x = c then matchAtoms as t else none) = none
        rw [if_neg hx]
      rw [h2] at h
      exact absurd h (by simp)

/-- A run of literal atoms consumes exactly the corresponding string. -/
theorem matchAtoms_lits :
    ∀ (str : List Char) (as : List RAtom) (s : List Char),
      matchAtoms (str.map RAtom.lit ++ as) (str ++ s) = matchAtoms as s := by
  intro str
  induction str with
  | nil => intro as s; rfl
  | cons c t ih =>
    intro as s
    rw [List.map_cons, List.cons_append, List.cons_append, matchAtoms_lit_cons]
    exact ih as s

/-- A position inside the list always reads a character. -/
theorem charAt_isSome {s : List Char} {j : Nat} (h : j < s.length) :
    ∃ c, charAt s j = some c := by
  rw [charAt]
  cases hd : s.drop j with
  | nil =>
    have hlen := congrArg List.length hd
    simp only [List.length_drop, List.length_nil] at hlen
    omega
  | cons c t => exact ⟨c, by simp⟩

/-- The zero count is always at hand at the end of the greedy counts. -/
theorem descPos_zero_cons (n : Nat) : ∃ rest, descPos n ++ [0] = n :: rest := by
  cases n with
  | zero => exact ⟨[], rfl⟩
  | succ m => exact ⟨descPos m ++ [0], by simp [descPos]⟩

/-- Dropping a strict prefix does not change the last element. -/
theorem getLast_drop_of_lt {α : Type} (l : List α) (k : Nat) (h : k < l.length) :
    (l.drop k).getLast? = l.getLast? := by
  conv_rhs => rw [← List.take_append_drop k l]
  rw [List.getLast?_append_of_ne_nil]
  intro hcon
  have := congrArg List.length hcon
  simp only [List.length_drop, List.length_nil] at this
  omega

/-- A greedy zero-or-more whose maximal run is followed by a succeeding
continuation takes the whole run. -/
theorem matchAtoms_starG_run {p : Char → Bool} (as : List RAtom) (w t : List Char)
    (hw : ∀ c ∈ w, p c = true) (ht : headBreaks p t)
    (gs : List (List Char)) (r : List Char) (h : matchAtoms as t = some (gs, r)) :
    matchAtoms (.starG p :: as) (w ++ t) = some (gs, r) := by
  have hn : npfx p (w ++ t) = w.length := npfx_run w t hw ht
  obtain ⟨rest2, hr⟩ := descPos_zero_cons w.length
  simp only [matchAtoms]
  rw [hn, hr, tryEach, List.drop_left, h]
  rfl

/-- A greedy one-or-more over a nonempty conforming run followed by a
succeeding continuation takes and captures the whole run. -/
theorem matchAtoms_plusG_run {p : Char → Bool} (as : List RAtom) (d t : List Char)
    (hne : d ≠ []) (hd : ∀ c ∈ d, p c = true) (ht : headBreaks p t)
    (gs : List (List Char)) (r : List Char) (h : matchAtoms as t = some (gs, r)) :
    matchAtoms (.plusG p :: as) (d ++ t) = some (d :: gs, r) := by
  have hn : npfx p (d ++ t) = d.length := npfx_run d t hd ht
  simp only [matchAtoms]
  rw [hn]
  cases hlen : d.length with
  | zero => rw [List.length_eq_zero] at hlen; exact absurd hlen hne
  | succ m =>
    rw [descPos, tryEach, ← hlen, List.drop_left, h, List.take_left]
    rfl

/-- A whitespace star followed by a literal fails while scanning inside
a chunk that is free of the literal and does not end in whitespace. -/
theorem matchAtoms_starG_lit_fail (sep : Char) (as : List RAtom) (G t2 : List Char)
    (hne : G ≠ []) (hlast : lastBreaks pyWsChar G) (hsep : ∀ c ∈ G, c ≠ sep) :
    matchAtoms (.starG pyWsChar :: .lit sep :: as) (G ++ t2) = none := by
  simp only [matchAtoms]
  apply tryEach_none
  intro k hk
  have hR : npfx pyWsChar (G ++ t2) < G.length := npfx_lt_of_last G t2 hne hlast
  have hkR : k ≤ npfx pyWsChar (G ++ t2) := by
    rcases List.mem_append.mp hk with h | h
    · exact descPos_le _ _ h
    · simp at h; omega
  apply matchAtoms_lit_none
  intro d hdd
  have hca : charAt (G ++ t2) k = some d := hdd
  rw [charAt_append_left (by omega)] at hca
  exact hsep d (charAt_mem hca)

/-- A whitespace star before a newline literal consumes nothing when
the newline is at hand: the greedy longer counts all fail against the
following indent and line head. -/
theorem matchAtoms_starG_nl (as : List RAtom) (w t : List Char)
    (hw : ∀ c ∈ w, pyWsChar c = true ∧ c ≠ '\n') (ht : headBreaks pyWsChar t)
    (gs : List (List Char)) (r : List Char) (h : matchAtoms as (w ++ t) = some (gs, r)) :
    matchAtoms (.starG pyWsChar :: .lit '\n' :: as) ('\n' :: (w ++ t)) = some (gs, r) := by
  have hn : npfx pyWsChar ('\n' :: (w ++ t)) = w.length + 1 := by
    have := npfx_run ('\n' :: w) t
      (by
        intro c hc
        rcases List.mem_cons.mp hc with hc | hc
        · subst hc; rfl
        · exact (hw c hc).1)
      ht
    simpa using this
  simp only [matchAtoms]
  rw [hn]
  rw [tryEach_first _ false _ 0 [] gs r (descPos (w.length + 1)) ?_ ?_]
  · rfl
  · intro k hk
    have hk1 : 1 ≤ k := descPos_pos _ _ hk
    have hk2 : k ≤ w.length + 1 := descPos_le _ _ hk
    apply matchAtoms_lit_none
    intro d hdd
    have hca : charAt ('\n' :: (w ++ t)) k = some d := hdd
    rw [show k = (k - 1) + 1 from by omega] at hca
    rw [show charAt ('\n' :: (w ++ t)) ((k - 1) + 1) = charAt (w ++ t) (k - 1) from rfl] at hca
    by_cases hlt : k - 1 < w.length
    · rw [charAt_append_left hlt] at hca
      exact (hw d (charAt_mem hca)).2
    · have hkw : k - 1 = w.length := by omega
      rw [hkw] at hca
      rw [show charAt (w ++ t) w.length = t.head? from by rw [charAt, List.drop_left]] at hca
      intro hdn
      subst hdn
      have := ht '\n' hca
      simp [pyWsChar] at this
  · rw [List.drop_zero]
    show (if '\n' = '\n' then matchAtoms as (w ++ t) else none) = some (gs, r)
    rw [if_pos rfl, h]

/-- Lazy field capture up to a separator preceded by one space: the
group takes exactly the field. -/
theorem matchAtoms_plusL_sep (sep : Char) (as : List RAtom) (F s2 : List Char)
    (gs : List (List Char)) (r : List Char)
    (hsep_ws : pyWsChar sep = false)
    (hne : F ≠ []) (hF : ∀ c ∈ F, c ≠ '\n' ∧ c ≠ sep) (hlast : lastBreaks pyWsChar F)
    (h : matchAtoms as s2 = some (gs, r)) :
    matchAtoms (.plusL dotCls :: .starG pyWsChar :: .lit sep :: as)
      (F ++ ' ' :: sep :: s2) = some (F :: gs, r) := by
  have hNge : F.length ≤ npfx dotCls (F ++ ' ' :: sep :: s2) :=
    npfx_ge F _ (fun c hc => by simp [dotCls, (hF c hc).1])
  have hF1 : 1 ≤ F.length := by
    cases F with
    | nil => exact absurd rfl hne
    | cons c t => simp
  obtain ⟨suffix, hsplit⟩ :=
    ascPos_split (npfx dotCls (F ++ ' ' :: sep :: s2)) F.length hF1 hNge
  simp only [matchAtoms]
  rw [hsplit]
  rw [tryEach_first _ true _ F.length suffix gs r (ascPos (F.length - 1)) ?_ ?_,
    List.take_left]
  · rfl
  · intro k hk
    obtain ⟨hk1, hk2⟩ := mem_ascPos hk
    rw [drop_append_le F _ k (by omega)]
    apply matchAtoms_starG_lit_fail
    · intro hcon
      have := congrArg List.length hcon
      simp only [List.length_drop, List.length_nil] at this
      omega
    · intro c hc
      rw [getLast_drop_of_lt F k (by omega)] at hc
      exact hlast c hc
    · intro c hc
      exact (hF c (List.mem_of_mem_drop hc)).2
  · rw [List.drop_left]
    exact @matchAtoms_starG_run pyWsChar (.lit sep :: as) [' '] (sep :: s2)
      (by intro c hc; simp at hc; subst hc; rfl)
      (by intro c hc; simp at hc; subst hc; exact hsep_ws)
      gs r (by rw [matchAtoms_lit_cons]; exact h)

/-- Lazy field capture up to the end of the line: the group takes
exactly the field and the match continues past the newline. -/
theorem matchAtoms_plusL_nl (as : List RAtom) (F w t : List Char)
    (gs : List (List Char)) (r : List Char)
    (hne : F ≠ []) (hFnl : ∀ c ∈ F, c ≠ '\n') (hlast : lastBreaks pyWsChar F)
    (hw : ∀ c ∈ w, pyWsChar c = true ∧ c ≠ '\n') (ht : headBreaks pyWsChar t)
    (h : matchAtoms as (w ++ t) = some (gs, r)) :
    matchAtoms (.plusL dotCls :: .starG pyWsChar :: .lit '\n' :: as)
      (F ++ '\n' :: (w ++ t)) = some (F :: gs, r) := by
  have hN : npfx dotCls (F ++ '\n' :: (w ++ t)) = F.length :=
    npfx_run F _ (fun c hc => by simp [dotCls, hFnl c hc])
      (by intro c hc; simp at hc; subst hc; rfl)
  have hF1 : 1 ≤ F.length := by
    cases F with
    | nil => exact absurd rfl hne
    | cons c t3 => simp
  obtain ⟨suffix, hsplit⟩ :=
    ascPos_split (npfx dotCls (F ++ '\n' :: (w ++ t))) F.length hF1 (by omega)
  simp only [matchAtoms]
  rw [hsplit]
  rw [tryEach_first _ true _ F.length suffix gs r (ascPos (F.length - 1)) ?_ ?_,
    List.take_left]
  · rfl
  · intro k hk
    obtain ⟨hk1, hk2⟩ := mem_ascPos hk
    rw [drop_append_le F _ k (by omega)]
    apply matchAtoms_starG_lit_fail
    · intro hcon
      have := congrArg List.length hcon
      simp only [List.length_drop, List.length_nil] at this
      omega
    · intro c hc
      rw [getLast_drop_of_lt F k (by omega)] at hc
      exact hlast c hc
    · intro c hc
      exact hFnl c (List.mem_of_mem_drop hc)
  · rw [List.drop_left]
    exact matchAtoms_starG_nl as w t hw ht gs r h

/-- Reading past a left part lands in the right part. -/
theorem charAt_append_right (A B : List Char) (m : Nat) :
    charAt (A ++ B) (A.length + m) = charAt B m := by
  rw [charAt, charAt, ← List.drop_drop, List.drop_left]

/-- A nonempty left part with a class-breaking head breaks the class
for the whole append. -/
theorem headBreaks_append {p : Char → Bool} {F : List Char} (t : List Char) (hne : F ≠ [])
    (hh : ∀ c, F.head? = some c → p c = false) : headBreaks p (F ++ t) := by
  cases F with
  | nil => exact absurd rfl hne
  | cons a F2 =>
    intro c hc
    simp only [List.cons_append, List.head?_cons, Option.some.injEq] at hc
    exact hc ▸ hh a rfl

/-- A decimal digit is not Python whitespace. -/
theorem pyDigit_not_ws {c : Char} (h : pyDigit c = true) : pyWsChar c = false := by
  have hn : 48 ≤ c.toNat ∧ c.toNat ≤ 57 := by
    rw [pyDigit] at h
    simp only [Bool.and_eq_true, decide_eq_true_eq] at h
    exact ⟨h.1, h.2⟩
  obtain ⟨h1n, h2n⟩ := hn
  rw [pyWsChar]
  simp only [Bool.or_eq_false_iff, Bool.and_eq_false_iff, decide_eq_false_iff_not]
  repeat' apply And.intro
  all_goals first
  | (intro hc; subst hc; exact absurd h (by decide))
  | omega

/-- A decimal digit is not a dot, a dash, a newline or a parenthesis. -/
theorem pyDigit_excl {c : Char} (h : pyDigit c = true) :
    c ≠ '.' ∧ c ≠ '-' ∧ c ≠ '\n' ∧ c ≠ '(' := by
  refine ⟨?_, ?_, ?_, ?_⟩ <;> (intro hc; subst hc; exact absurd h (by decide))

/-- The digit accumulator splits off its accumulator. -/
theorem natCharsCore_acc :
    ∀ (fuel n : Nat) (acc : List Char),
      natCharsCore fuel n acc = natCharsCore fuel n [] ++ acc := by
  intro fuel
  induction fuel with
  | zero => intro n acc; rfl
  | succ f ih =>
    intro n acc
    by_cases hn : n = 0
    · simp [natCharsCore, hn]
    · rw [natCharsCore, if_neg hn, natCharsCore, if_neg hn, ih (n / 10),
        ih (n / 10) [Char.ofNat ('0'.toNat + n % 10)], List.append_assoc]
      rfl

/-- Every character the digit accumulator emits is a decimal digit. -/
theorem natCharsCore_digits :
    ∀ (fuel n : Nat), ∀ c ∈ natCharsCore fuel n [], pyDigit c = true := by
  intro fuel
  induction fuel with
  | zero => intro n c hc; simp [natCharsCore] at hc
  | succ f ih =>
    intro n c hc
    by_cases hn : n = 0
    · simp [natCharsCore, hn] at hc
    · rw [natCharsCore, if_neg hn, natCharsCore_acc] at hc
      rcases List.mem_append.mp hc with h | h
      · exact ih (n / 10) c h
      · simp only [List.mem_singleton] at h
        subst h
        obtain ⟨m, hm, hme⟩ : ∃ m, m < 10 ∧ n % 10 = m :=
          ⟨n % 10, Nat.mod_lt _ (by omega), rfl⟩
        rw [hme]
        interval_cases m <;> decide

/-- Folding the base-ten accumulator from a start value. -/
theorem digitsVal_from :
    ∀ (l : List Char) (a : Nat),
      l.foldl (fun a c => 10 * a + digitVal c) a = a * 10 ^ l.length + digitsVal l := by
  intro l
  induction l with
  | nil => intro a; simp [digitsVal]
  | cons c t ih =>
    intro a
    rw [List.foldl_cons, ih (10 * a + digitVal c)]
    have h2 : digitsVal (c :: t) = digitVal c * 10 ^ t.length + digitsVal t := by
      rw [digitsVal, List.foldl_cons, ih (10 * 0 + digitVal c)]
      ring_nf
    rw [h2]
    simp [List.length_cons, pow_succ]
    ring

/-- The digit accumulator writes the decimal value it was given. -/
theorem digitsVal_natCharsCore :
    ∀ (fuel n : Nat), n ≤ fuel → digitsVal (natCharsCore fuel n []) = n := by
  intro fuel
  induction fuel with
  | zero =>
    intro n h
    have hn : n = 0 := by omega
    subst hn
    rfl
  | succ f ih =>
    intro n h
    by_cases hn : n = 0
    · subst hn; rfl
    · rw [natCharsCore, if_neg hn, natCharsCore_acc, digitsVal, List.foldl_append]
      have hd : n / 10 ≤ f := by omega
      have := ih (n / 10) hd
      rw [digitsVal] at this
      rw [this]
      show 10 * (n / 10) + digitVal (Char.ofNat ('0'.toNat + n % 10)) = n
      obtain ⟨m, hm, hme⟩ : ∃ m, m < 10 ∧ n % 10 = m :=
        ⟨n % 10, Nat.mod_lt _ (by omega), rfl⟩
      rw [hme]
      have hv : digitVal (Char.ofNat ('0'.toNat + m)) = m := by
        interval_cases m <;> rfl
      rw [hv]
      omega

/-- Printing then reading a natural number is the identity, the core of
the manifest round trip on the numeric fields. -/
theorem digitsVal_natChars (n : Nat) : digitsVal (natChars n) = n := by
  by_cases hn : n = 0
  · subst hn; rfl
  · rw [natChars, if_neg hn]
    exact digitsVal_natCharsCore n n (le_refl n)

/-- Every character of a printed natural number is a decimal digit. -/
theorem natChars_digits (n : Nat) : ∀ c ∈ natChars n, pyDigit c = true := by
  by_cases hn : n = 0
  · subst hn; intro c hc; simp [natChars] at hc; subst hc; decide
  · rw [natChars, if_neg hn]; exact natCharsCore_digits n n

/-- A printed natural number is never the empty string. -/
theorem natChars_ne_nil (n : Nat) : natChars n ≠ [] := by
  by_cases hn : n = 0
  · subst hn; simp [natChars]
  · rw [natChars, if_neg hn]
    cases n with
    | zero => exact absurd rfl hn
    | succ m =>
      rw [natCharsCore, if_neg hn, natCharsCore_acc]
      simp

/-- A list of digits has a class-breaking head for whitespace and holds
none of the structural characters of the block pattern. -/
theorem natChars_head_ws (n : Nat) :
    ∀ c, (natChars n).head? = some c → pyWsChar c = false := by
  intro c hc
  have hm : c ∈ natChars n := by
    cases hl : natChars n with
    | nil => rw [hl] at hc; simp at hc
    | cons a t => rw [hl] at hc; simp at hc; subst hc; simp [hl]
  exact pyDigit_not_ws (natChars_digits n c hm)

/-- Stripping does nothing when neither end is whitespace. -/
theorem dropWhile_head_eq_self {p : Char → Bool} {l : List Char}
    (h : ∀ c, l.head? = some c → p c = false) : l.dropWhile p = l := by
  cases l with
  | nil => rfl
  | cons c t =>
    rw [List.dropWhile_cons, h c rfl]
    simp

/-- Python strip is the identity on a list whose two ends are not
whitespace. -/
theorem pyStripChars_eq_self {l : List Char}
    (hh : ∀ c, l.head? = some c → pyWsChar c = false)
    (hl : ∀ c, l.getLast? = some c → pyWsChar c = false) : pyStripChars l = l := by
  rw [pyStripChars, dropWhile_head_eq_self hh, dropWhile_head_eq_self
    (by intro c hc; rw [List.head?_reverse] at hc; exact hl c hc), List.reverse_reverse]

/-- Unpacking of the recoverable-field test. -/
theorem fieldSafe_spec {l : List Char} (h : fieldSafe l = true) :
    l ≠ [] ∧ (∀ c ∈ l, c ≠ '\n') ∧ (∀ c, l.head? = some c → pyWsChar c = false) ∧
      (∀ c, l.getLast? = some c → pyWsChar c = false) := by
  rw [fieldSafe] at h
  simp only [Bool.and_eq_true, List.all_eq_true, bne_iff_ne, Bool.not_eq_true'] at h
  obtain ⟨⟨⟨h1, h2⟩, h3⟩, h4⟩ := h
  refine ⟨by simpa using h1, h2, ?_, ?_⟩
  · intro c hc
    rw [hc] at h3
    simpa using h3
  · intro c hc
    rw [hc] at h4
    simpa using h4

/-- Inversion of a literal atom: the head character is consumed. -/
theorem matchAtoms_lit_some_inv {c : Char} {as : List RAtom} {s : List Char}
    {res : List (List Char) × List Char} (h : matchAtoms (.lit c :: as) s = some res) :
    ∃ s2, s = c :: s2 ∧ matchAtoms as s2 = some res := by
  cases s with
  | nil => exact absurd h (by simp [matchAtoms])
  | cons x t =>
    by_cases hx : x = c
    · subst hx
      rw [matchAtoms_lit_cons] at h
      exact ⟨t, rfl, h⟩
    · have h2 : matchAtoms (.lit c :: as) (x :: t) = none := by
        show (if x = c then matchAtoms as t else none) = none
        rw [if_neg hx]
      rw [h2] at h
      exact absurd h (by simp)

/-- A maximal run ending inside the left part ignores the right part. -/
theorem npfx_append_of_lt {p : Char → Bool} :
    ∀ (U X : List Char), npfx p U < U.length → npfx p (U ++ X) = npfx p U := by
  intro U
  induction U with
  | nil => intro X h; simp [npfx] at h
  | cons c t ih =>
    intro X h
    rw [List.cons_append, npfx, npfx]
    by_cases hc : p c
    · rw [if_pos hc, if_pos hc]
      rw [npfx, if_pos hc, List.length_cons] at h
      rw [ih X (by omega)]
    · rw [if_neg hc, if_neg hc]

/-- A digit directly followed by a dot witnesses the pair scan. -/
theorem digitDotPair_of_at :
    ∀ (H : List Char) (j : Nat) (c : Char), charAt H j = some c → pyDigit c = true →
      charAt H (j + 1) = some '.' → digitDotPair H = true := by
  intro H
  induction H with
  | nil => intro j c h1; rw [charAt] at h1; simp at h1
  | cons a t ih =>
    intro j c h1 h2 h3
    cases t with
    | nil =>
      cases j with
      | zero => rw [show charAt [a] 1 = none from rfl] at h3; simp at h3
      | succ m =>
        rw [show charAt [a] (m + 1) = charAt ([] : List Char) m from rfl, charAt] at h1
        simp at h1
    | cons b t2 =>
      cases j with
      | zero =>
        have ha : a = c := by
          rw [show charAt (a :: b :: t2) 0 = some a from rfl] at h1
          simpa using h1
        have hb : b = '.' := by
          rw [show charAt (a :: b :: t2) 1 = some b from rfl] at h3
          simpa using h3
        subst ha
        subst hb
        rw [digitDotPair]
        simp [h2]
      | succ m =>
        have hstep : digitDotPair (b :: t2) = true :=
          ih m c h1 h2 h3
        rw [digitDotPair, hstep]
        simp

/-- The pair scan is monotone under dropping the head. -/
theorem digitDotPair_tail {l : List Char} (h : digitDotPair l = false) :
    digitDotPair l.tail = false := by
  cases l with
  | nil => rfl
  | cons a t =>
    cases t with
    | nil => rfl
    | cons b t2 =>
      rw [digitDotPair] at h
      simp only [Bool.or_eq_false_iff] at h
      exact h.2

/-- The pair scan is monotone under dropping any prefix. -/
theorem digitDotPair_drop {l : List Char} (h : digitDotPair l = false) :
    ∀ j, digitDotPair (l.drop j) = false := by
  intro j
  induction j with
  | zero => simpa using h
  | succ m ih =>
    rw [← List.tail_drop]
    exact digitDotPair_tail ih

/-- The pair scan over an append is false when both parts are pair free
and the seam puts no dot after a digit. -/
theorem digitDotPair_append_false :
    ∀ {A B : List Char}, digitDotPair A = false → digitDotPair B = false →
      (∀ c, A.getLast? = some c → pyDigit c = true → B.head? ≠ some '.') →
      digitDotPair (A ++ B) = false := by
  intro A
  induction A with
  | nil => intro B _ hB _; simpa using hB
  | cons a t ih =>
    intro B hA hB hseam
    cases t with
    | nil =>
      cases B with
      | nil => rfl
      | cons b B2 =>
        rw [List.cons_append, List.nil_append, digitDotPair]
        simp only [Bool.or_eq_false_iff]
        constructor
        · by_cases hd : pyDigit a
          · have := hseam a rfl hd
            simp only [List.head?_cons, ne_eq, Option.some.injEq] at this
            simp [this]
          · simp [hd]
        · simpa using hB
    | cons x t2 =>
      rw [digitDotPair] at hA
      simp only [Bool.or_eq_false_iff] at hA
      rw [List.cons_append, List.cons_append, digitDotPair]
      simp only [Bool.or_eq_false_iff]
      refine ⟨hA.1, ?_⟩
      rw [← List.cons_append]
      exact ih hA.2 hB (by
        intro c hc
        apply hseam c
        rw [List.getLast?_cons_cons]
        exact hc)

/-- A list without digits is pair free. -/
theorem digitDotPair_no_digit :
    ∀ {l : List Char}, (∀ c ∈ l, pyDigit c = false) → digitDotPair l = false := by
  intro l
  induction l with
  | nil => intro h; rfl
  | cons a t ih =>
    intro h
    cases t with
    | nil => rfl
    | cons b t2 =>
      rw [digitDotPair]
      simp only [Bool.or_eq_false_iff]
      exact ⟨by simp [h a (by simp)], ih (by intro c hc; exact h c (by simp [hc]))⟩

/-- A list without dots is pair free. -/
theorem digitDotPair_no_dot :
    ∀ {l : List Char}, (∀ c ∈ l, c ≠ '.') → digitDotPair l = false := by
  intro l
  induction l with
  | nil => intro h; rfl
  | cons a t ih =>
    intro h
    cases t with
    | nil => rfl
    | cons b t2 =>
      rw [digitDotPair]
      simp only [Bool.or_eq_false_iff]
      constructor
      · have : b ≠ '.' := h b (by simp)
        simp [this]
      · exact ih (by intro c hc; exact h c (by simp [hc]))

/-- A nonempty left part whose head breaks the class breaks it for the
whole append, with the left part given explicitly. -/
theorem headBreaks_of_head {p : Char → Bool} (L X : List Char) {d : Char}
    (hL : L.head? = some d) (hd : p d = false) : headBreaks p (L ++ X) := by
  cases L with
  | nil => simp at hL
  | cons a t =>
    intro c hc
    rw [List.cons_append, List.head?_cons] at hc
    rw [List.head?_cons] at hL
    have h1 : a = d := by simpa using hL
    have h2 : a = c := by simpa using hc
    rw [← h2, h1]
    exact hd

/-- The song-block pattern matches exactly one whole block of the
manifest written for a safe record, capturing the nine fields and
leaving the advisory trailer as the remainder. -/
theorem matchSong_block (s : SongInfo) (i : Nat) (X : List Char)
    (hs : recordSafe s = true) :
    matchSong (blockHeadChars s i ++ (trailerChars ++ X)) =
      some ([natChars i, s.name.data, s.artist.data, natChars s.song_id, s.quality.data,
        natChars s.bitrate, s.url.data, natChars s.size, s.type.data],
        trailerChars ++ X) := by
  rw [recordSafe] at hs
  simp only [Bool.and_eq_true] at hs
  obtain ⟨⟨⟨⟨hnm0, har0⟩, hqu0⟩, hur0⟩, hty0⟩ := hs
  rw [nameSafe] at hnm0
  simp only [Bool.and_eq_true, List.all_eq_true, bne_iff_ne] at hnm0
  obtain ⟨hnmf, hnmd⟩ := hnm0
  rw [qualitySafe] at hqu0
  simp only [Bool.and_eq_true, List.all_eq_true, bne_iff_ne] at hqu0
  obtain ⟨hquf, hqup⟩ := hqu0
  obtain ⟨hnm1, hnm2, hnm3, hnm4⟩ := fieldSafe_spec hnmf
  obtain ⟨har1, har2, har3, har4⟩ := fieldSafe_spec har0
  obtain ⟨hqu1, hqu2, hqu3, hqu4⟩ := fieldSafe_spec hquf
  obtain ⟨hur1, hur2, hur3, hur4⟩ := fieldSafe_spec hur0
  obtain ⟨hty1, hty2, hty3, hty4⟩ := fieldSafe_spec hty0
  let nm : List Char := s.name.data
  let ar : List Char := s.artist.data
  let qu : List Char := s.quality.data
  let ur : List Char := s.url.data
  let ty : List Char := s.type.data
  let iN : List Char := natChars i
  let idN : List Char := natChars s.song_id
  let brN : List Char := natChars s.bitrate
  let szN : List Char := natChars s.size
  let ind : List Char := ("   " : String).data
  let A1 : List RAtom := [.plusL dotCls, .starG pyWsChar, .lit '\n']
  let A2 : List RAtom := .starG pyWsChar :: A1
  let A3 : List RAtom := ("类型:".data).map RAtom.lit ++ A2
  let A4 : List RAtom := .starG pyWsChar :: A3
  let A5 : List RAtom := .starG pyWsChar :: .lit '\n' :: A4
  let A6 : List RAtom := ("bytes".data).map RAtom.lit ++ A5
  let A7 : List RAtom := .starG pyWsChar :: A6
  let A8 : List RAtom := .plusG pyDigit :: A7
  let A9 : List RAtom := .starG pyWsChar :: A8
  let A10 : List RAtom := ("大小:".data).map RAtom.lit ++ A9
  let A11 : List RAtom := .starG pyWsChar :: A10
  let A12 : List RAtom := .plusL dotCls :: .starG pyWsChar :: .lit '\n' :: A11
  let A13 : List RAtom := .starG pyWsChar :: A12
  let A14 : List RAtom := ("直链:".data).map RAtom.lit ++ A13
  let A15 : List RAtom := .starG pyWsChar :: A14
  let A16 : List RAtom := .starG pyWsChar :: .lit '\n' :: A15
  let A17 : List RAtom := ("kbps)".data).map RAtom.lit ++ A16
  let A18 : List RAtom := .plusG pyDigit :: A17
  let A19 : List RAtom := .plusL dotCls :: .starG pyWsChar :: .lit '(' :: A18
  let A20 : List RAtom := .starG pyWsChar :: A19
  let A21 : List RAtom := ("音质:".data).map RAtom.lit ++ A20
  let A22 : List RAtom := .starG pyWsChar :: A21
  let A23 : List RAtom := .starG pyWsChar :: .lit '\n' :: A22
  let A24 : List RAtom := .plusG pyDigit :: A23
  let A25 : List RAtom := .starG pyWsChar :: A24
  let A26 : List RAtom := ("歌曲ID:".data).map RAtom.lit ++ A25
  let A27 : List RAtom := .starG pyWsChar :: A26
  let A28 : List RAtom := .plusL dotCls :: .starG pyWsChar :: .lit '\n' :: A27
  let A29 : List RAtom := .starG pyWsChar :: A28
  let A30 : List RAtom := .plusL dotCls :: .starG pyWsChar :: .lit '-' :: A29
  let A31 : List RAtom := .starG pyWsChar :: A30
  let A32 : List RAtom := .lit '.' :: A31
  let A33 : List RAtom := .plusG pyDigit :: A32
  let t0 : List Char :=
    ("下载说明: 此直链需要添加Referer请求头才能正常访问\n   推荐下载工具: IDM、Aria2、curl等支持自定义请求头的工具\n   必要请求头: Referer: https://music.163.com/\n   User-Agent: Mozilla/5.0 (Windows NT 10.0; Win64; x64) AppleWebKit/537.36\n\n" : String).data ++ X
  let t1 : List Char := ind ++ t0
  let t2 : List Char := ty ++ '\n' :: t1
  let t3 : List Char := ' ' :: t2
  let t4 : List Char := "类型:".data ++ t3
  let t5 : List Char := ind ++ t4
  let t6 : List Char := '\n' :: t5
  let t7 : List Char := "bytes".data ++ t6
  let t8 : List Char := ' ' :: t7
  let t9 : List Char := szN ++ t8
  let t10 : List Char := ' ' :: t9
  let t11 : List Char := "大小:".data ++ t10
  let t12 : List Char := ind ++ t11
  let t13 : List Char := ur ++ '\n' :: t12
  let t14 : List Char := ' ' :: t13
  let t15 : List Char := "直链:".data ++ t14
  let t16 : List Char := ind ++ t15
  let t17 : List Char := '\n' :: t16
  let t18 : List Char := "kbps)".data ++ t17
  let t19 : List Char := brN ++ t18
  let t20 : List Char := qu ++ ' ' :: '(' :: t19
  let t21 : List Char := ' ' :: t20
  let t22 : List Char := "音质:".data ++ t21
  let t23 : List Char := ind ++ t22
  let t24 : List Char := '\n' :: t23
  let t25 : List Char := idN ++ t24
  let t26 : List Char := ' ' :: t25
  let t27 : List Char := "歌曲ID:".data ++ t26
  let t28 : List Char := ind ++ t27
  let t29 : List Char := ar ++ '\n' :: t28
  let t30 : List Char := ' ' :: t29
  let t31 : List Char := nm ++ ' ' :: '-' :: t30
  let t32 : List Char := ' ' :: t31
  let t33 : List Char := '.' :: t32
  let t34 : List Char := iN ++ t33
  have h0 : matchAtoms [] t1 = some ([], t1) := rfl
  have h1 : matchAtoms A1 t2 = some ([ty], t1) :=
    matchAtoms_plusL_nl [] ty ind t0 [] t1 hty1 hty2 hty4 (by decide)
      (headBreaks_of_head _ X rfl (by decide)) h0
  have h2 : matchAtoms A2 t3 = some ([ty], t1) :=
    @matchAtoms_starG_run pyWsChar A1 [' '] t2 (by decide)
      (headBreaks_append ('\n' :: t1) hty1 hty3) [ty] t1 h1
  have h3 : matchAtoms A3 t4 = some ([ty], t1) :=
    (matchAtoms_lits "类型:".data A2 t3).trans h2
  have h4 : matchAtoms A4 t5 = some ([ty], t1) :=
    @matchAtoms_starG_run pyWsChar A3 ind t4 (by decide)
      (headBreaks_of_head "类型:".data t3 rfl (by decide)) [ty] t1 h3
  have h5 : matchAtoms A5 t6 = some ([ty], t1) :=
    matchAtoms_starG_nl A4 ind t4 (by decide)
      (headBreaks_of_head "类型:".data t3 rfl (by decide)) [ty] t1 h4
  have h6 : matchAtoms A6 t7 = some ([ty], t1) :=
    (matchAtoms_lits "bytes".data A5 t6).trans h5
  have h7 : matchAtoms A7 t8 = some ([ty], t1) :=
    @matchAtoms_starG_run pyWsChar A6 [' '] t7 (by decide)
      (headBreaks_of_head "bytes".data t6 rfl (by decide)) [ty] t1 h6
  have h8 : matchAtoms A8 t9 = some ([szN, ty], t1) :=
    @matchAtoms_plusG_run pyDigit A7 szN t8 (natChars_ne_nil _) (natChars_digits _)
      (by intro c hc
          have hc2 : ' ' = c := Option.some.inj hc
          subst hc2; decide) [ty] t1 h7
  have h9 : matchAtoms A9 t10 = some ([szN, ty], t1) :=
    @matchAtoms_starG_run pyWsChar A8 [' '] t9 (by decide)
      (headBreaks_append t8 (natChars_ne_nil _) (natChars_head_ws _)) [szN, ty] t1 h8
  have h10 : matchAtoms A10 t11 = some ([szN, ty], t1) :=
    (matchAtoms_lits "大小:".data A9 t10).trans h9
  have h11 : matchAtoms A11 t12 = some ([szN, ty], t1) :=
    @matchAtoms_starG_run pyWsChar A10 ind t11 (by decide)
      (headBreaks_of_head "大小:".data t10 rfl (by decide)) [szN, ty] t1 h10
  have h12 : matchAtoms A12 t13 = some ([ur, szN, ty], t1) :=
    matchAtoms_plusL_nl A11 ur ind t11 [szN, ty] t1 hur1 hur2 hur4 (by decide)
      (headBreaks_of_head "大小:".data t10 rfl (by decide)) h11
  have h13 : matchAtoms A13 t14 = some ([ur, szN, ty], t1) :=
    @matchAtoms_starG_run pyWsChar A12 [' '] t13 (by decide)
      (headBreaks_append ('\n' :: t12) hur1 hur3) [ur, szN, ty] t1 h12
  have h14 : matchAtoms A14 t15 = some ([ur, szN, ty], t1) :=
    (matchAtoms_lits "直链:".data A13 t14).trans h13
  have h15 : matchAtoms A15 t16 = some ([ur, szN, ty], t1) :=
    @matchAtoms_starG_run pyWsChar A14 ind t15 (by decide)
      (headBreaks_of_head "直链:".data t14 rfl (by decide)) [ur, szN, ty] t1 h14
  have h16 : matchAtoms A16 t17 = some ([ur, szN, ty], t1) :=
    matchAtoms_starG_nl A15 ind t15 (by decide)
      (headBreaks_of_head "直链:".data t14 rfl (by decide)) [ur, szN, ty] t1 h15
  have h17 : matchAtoms A17 t18 = some ([ur, szN, ty], t1) :=
    (matchAtoms_lits "kbps)".data A16 t17).trans h16
  have h18 : matchAtoms A18 t19 = some ([brN, ur, szN, ty], t1) :=
    @matchAtoms_plusG_run pyDigit A17 brN t18 (natChars_ne_nil _) (natChars_digits _)
      (headBreaks_of_head "kbps)".data t17 rfl (by decide)) [ur, szN, ty] t1 h17
  have h19 : matchAtoms A19 t20 = some ([qu, brN, ur, szN, ty], t1) :=
    matchAtoms_plusL_sep '(' A18 qu t19 [brN, ur, szN, ty] t1 (by decide) hqu1
      (fun c hc => ⟨hqu2 c hc, hqup c hc⟩) hqu4 h18
  have h20 : matchAtoms A20 t21 = some ([qu, brN, ur, szN, ty], t1) :=
    @matchAtoms_starG_run pyWsChar A19 [' '] t20 (by decide)
      (headBreaks_append (' ' :: '(' :: t19) hqu1 hqu3) [qu, brN, ur, szN, ty] t1 h19
  have h21 : matchAtoms A21 t22 = some ([qu, brN, ur, szN, ty], t1) :=
    (matchAtoms_lits "音质:".data A20 t21).trans h20
  have h22 : matchAtoms A22 t23 = some ([qu, brN, ur, szN, ty], t1) :=
    @matchAtoms_starG_run pyWsChar A21 ind t22 (by decide)
      (headBreaks_of_head "音质:".data t21 rfl (by decide)) [qu, brN, ur, szN, ty] t1 h21
  have h23 : matchAtoms A23 t24 = some ([qu, brN, ur, szN, ty], t1) :=
    matchAtoms_starG_nl A22 ind t22 (by decide)
      (headBreaks_of_head "音质:".data t21 rfl (by decide)) [qu, brN, ur, szN, ty] t1 h22
  have h24 : matchAtoms A24 t25 = some ([idN, qu, brN, ur, szN, ty], t1) :=
    @matchAtoms_plusG_run pyDigit A23 idN t24 (natChars_ne_nil _) (natChars_digits _)
      (by intro c hc
          have hc2 : '\n' = c := Option.some.inj hc
          subst hc2; decide) [qu, brN, ur, szN, ty] t1 h23
  have h25 : matchAtoms A25 t26 = some ([idN, qu, brN, ur, szN, ty], t1) :=
    @matchAtoms_starG_run pyWsChar A24 [' '] t25 (by decide)
      (headBreaks_append t24 (natChars_ne_nil _) (natChars_head_ws _))
      [idN, qu, brN, ur, szN, ty] t1 h24
  have h26 : matchAtoms A26 t27 = some ([idN, qu, brN, ur, szN, ty], t1) :=
    (matchAtoms_lits "歌曲ID:".data A25 t26).trans h25
  have h27 : matchAtoms A27 t28 = some ([idN, qu, brN, ur, szN, ty], t1) :=
    @matchAtoms_starG_run pyWsChar A26 ind t27 (by decide)
      (headBreaks_of_head "歌曲ID:".data t26 rfl (by decide))
      [idN, qu, brN, ur, szN, ty] t1 h26
  have h28 : matchAtoms A28 t29 = some ([ar, idN, qu, brN, ur, szN, ty], t1) :=
    matchAtoms_plusL_nl A27 ar ind t27 [idN, qu, brN, ur, szN, ty] t1 har1 har2 har4
      (by decide) (headBreaks_of_head "歌曲ID:".data t26 rfl (by decide)) h27
  have h29 : matchAtoms A29 t30 = some ([ar, idN, qu, brN, ur, szN, ty], t1) :=
    @matchAtoms_starG_run pyWsChar A28 [' '] t29 (by decide)
      (headBreaks_append ('\n' :: t28) har1 har3) [ar, idN, qu, brN, ur, szN, ty] t1 h28
  have h30 : matchAtoms A30 t31 = some ([nm, ar, idN, qu, brN, ur, szN, ty], t1) :=
    matchAtoms_plusL_sep '-' A29 nm t30 [ar, idN, qu, brN, ur, szN, ty] t1 (by decide)
      hnm1 (fun c hc => ⟨hnm2 c hc, hnmd c hc⟩) hnm4 h29
  have h31 : matchAtoms A31 t32 = some ([nm, ar, idN, qu, brN, ur, szN, ty], t1) :=
    @matchAtoms_starG_run pyWsChar A30 [' '] t31 (by decide)
      (headBreaks_append (' ' :: '-' :: t30) hnm1 hnm3)
      [nm, ar, idN, qu, brN, ur, szN, ty] t1 h30
  have h32 : matchAtoms A32 t33 = some ([nm, ar, idN, qu, brN, ur, szN, ty], t1) :=
    (matchAtoms_lit_cons '.' A31 t32).trans h31
  have h33 : matchAtoms A33 t34 = some ([iN, nm, ar, idN, qu, brN, ur, szN, ty], t1) :=
    @matchAtoms_plusG_run pyDigit A32 iN t33 (natChars_ne_nil _) (natChars_digits _)
      (by intro c hc
          have hc2 : '.' = c := Option.some.inj hc
          subst hc2; decide) [nm, ar, idN, qu, brN, ur, szN, ty] t1 h32
  have hin : blockHeadChars s i ++ (trailerChars ++ X) = t34 := by
    simp only [blockHeadChars, List.append_assoc]
    rfl
  show matchAtoms songPattern (blockHeadChars s i ++ (trailerChars ++ X)) = _
  rw [hin]
  exact h33

/-- Necessity of a number-dot head and a reachable dash: any successful
match of the block pattern starts with the maximal digit run, a dot
right after it, and reaches a dash through the name section. -/
theorem matchSong_numDot {s : List Char} {res : List (List Char) × List Char}
    (h : matchSong s = some res) :
    1 ≤ npfx pyDigit s ∧ charAt s (npfx pyDigit s) = some '.' ∧
      dashReach (s.drop (npfx pyDigit s + 1)) := by
  obtain ⟨res1, res2⟩ := res
  have h1 : tryEach (matchAtoms (songPattern.drop 1)) true s (descPos (npfx pyDigit s))
      = some (res1, res2) := h
  obtain ⟨k, hk, gs2, h2, _⟩ := tryEach_some _ _ _ _ _ _ h1
  have hk1 : 1 ≤ k := descPos_pos _ _ hk
  have hk2 : k ≤ npfx pyDigit s := descPos_le _ _ hk
  have h3 : matchAtoms (.lit '.' :: songPattern.drop 2) (s.drop k) = some (gs2, res2) := h2
  obtain ⟨s2, hs2, h4⟩ := matchAtoms_lit_some_inv h3
  have hch : charAt s k = some '.' := by rw [charAt, hs2]; rfl
  have hkeq : k = npfx pyDigit s := by
    by_contra hne
    obtain ⟨c, hc1, hc2⟩ := @npfx_charAt_lt pyDigit s k (by omega)
    rw [hch] at hc1
    have hc : '.' = c := Option.some.inj hc1
    subst hc
    exact absurd hc2 (by decide)
  have hs2' : s2 = s.drop (k + 1) := by
    rw [← List.tail_drop, hs2]
    rfl
  refine ⟨by omega, by rw [← hkeq]; exact hch, ?_⟩
  rw [← hkeq, ← hs2']
  have h5 : tryEach (matchAtoms (songPattern.drop 3)) false s2
      (descPos (npfx pyWsChar s2) ++ [0]) = some (gs2, res2) := h4
  obtain ⟨j1, hj1mem, gs3, h6, _⟩ := tryEach_some _ _ _ _ _ _ h5
  have hj1 : j1 ≤ npfx pyWsChar s2 := by
    rcases List.mem_append.mp hj1mem with hm | hm
    · exact descPos_le _ _ hm
    · simp at hm; omega
  have h7 : tryEach (matchAtoms (songPattern.drop 4)) true (s2.drop j1)
      (ascPos (npfx dotCls (s2.drop j1))) = some (gs3, res2) := h6
  obtain ⟨k2, hk2mem, gs4, h8, _⟩ := tryEach_some _ _ _ _ _ _ h7
  obtain ⟨hk21, hk22⟩ := mem_ascPos hk2mem
  have h9 : tryEach (matchAtoms (songPattern.drop 5)) false ((s2.drop j1).drop k2)
      (descPos (npfx pyWsChar ((s2.drop j1).drop k2)) ++ [0]) = some (gs4, res2) := h8
  obtain ⟨j2, hj2mem, gs5, h10, _⟩ := tryEach_some _ _ _ _ _ _ h9
  have hj2 : j2 ≤ npfx pyWsChar ((s2.drop j1).drop k2) := by
    rcases List.mem_append.mp hj2mem with hm | hm
    · exact descPos_le _ _ hm
    · simp at hm; omega
  have h11 : matchAtoms (.lit '-' :: songPattern.drop 6) (((s2.drop j1).drop k2).drop j2)
      = some (gs5, res2) := h10
  have hdash := matchAtoms_lit_some_head h11
  refine ⟨j1, k2, j2, ?_, hk21, ?_, ?_, ?_⟩
  · intro m hm
    exact @npfx_charAt_lt pyWsChar s2 m (by omega)
  · intro m hm1 hm2
    obtain ⟨c, hc1, hc2⟩ := @npfx_charAt_lt dotCls (s2.drop j1) (m - j1) (by omega)
    rw [charAt_drop, show j1 + (m - j1) = m from by omega] at hc1
    refine ⟨c, hc1, ?_⟩
    simpa [dotCls] using hc2
  · intro m hm1 hm2
    obtain ⟨c, hc1, hc2⟩ :=
      @npfx_charAt_lt pyWsChar ((s2.drop j1).drop k2) (m - j1 - k2) (by omega)
    rw [charAt_drop, charAt_drop, show j1 + (k2 + (m - j1 - k2)) = m from by omega] at hc1
    exact ⟨c, hc1, hc2⟩
  · have hd : charAt ((s2.drop j1).drop k2) j2 = some '-' := hdash
    rw [charAt_drop, charAt_drop, show j1 + (k2 + j2) = j1 + k2 + j2 from by omega] at hd
    exact hd

/-- A line whose visible part holds no dash, followed by material whose
dashes all come after an early non-whitespace character, cannot reach a
dash for the name section of the pattern. -/
theorem dashReach_line_false (L R : List Char) (q0 : Nat) (c0 : Char)
    (hLne : L ≠ []) (hLhead : ∀ c, L.head? = some c → pyWsChar c = false)
    (hLdash : ∀ c ∈ L, c ≠ '-')
    (hq : charAt R q0 = some c0) (hqws : pyWsChar c0 = false)
    (hearly : ∀ p, p ≤ q0 → charAt R p ≠ some '-') :
    ¬ dashReach (L ++ '\n' :: R) := by
  rintro ⟨j1, k, j2, hws1, hk1, hdot, hws2, hdash⟩
  have hj1 : j1 = 0 := by
    by_contra hne
    obtain ⟨c, hc1, hc2⟩ := hws1 0 (by omega)
    cases L with
    | nil => exact absurd rfl hLne
    | cons a t =>
      have ha : a = c := Option.some.inj hc1
      subst ha
      rw [hLhead a rfl] at hc2
      exact absurd hc2 (by simp)
  subst hj1
  have hnl : charAt (L ++ '\n' :: R) L.length = some '\n' := by
    rw [charAt, List.drop_left]
    rfl
  have hkL : k ≤ L.length := by
    by_contra hgt
    obtain ⟨c, hc1, hc2⟩ := hdot L.length (by omega) (by omega)
    rw [hnl] at hc1
    have hc : '\n' = c := Option.some.inj hc1
    subst hc
    exact hc2 rfl
  have hdash' : charAt (L ++ '\n' :: R) (k + j2) = some '-' := by simpa using hdash
  rcases lt_trichotomy (k + j2) L.length with hP | hP | hP
  · rw [charAt_append_left hP] at hdash'
    exact hLdash '-' (charAt_mem hdash') rfl
  · rw [hP, hnl] at hdash'
    exact absurd (Option.some.inj hdash') (by decide)
  · obtain ⟨pr, hpr⟩ : ∃ pr, k + j2 = L.length + (pr + 1) :=
      ⟨k + j2 - L.length - 1, by omega⟩
    have hstep : charAt (L ++ '\n' :: R) (L.length + (pr + 1)) = charAt ('\n' :: R) (pr + 1) :=
      charAt_append_right L ('\n' :: R) (pr + 1)
    rw [← hpr, hdash'] at hstep
    have hRdash : charAt R pr = some '-' := hstep.symm
    have hq0pr : q0 < pr := by
      by_contra hle
      exact hearly pr (by omega) hRdash
    obtain ⟨c, hc1, hc2⟩ := hws2 (L.length + (q0 + 1)) (by omega) (by omega)
    have hcq : charAt (L ++ '\n' :: R) (L.length + (q0 + 1)) = charAt R q0 :=
      charAt_append_right L ('\n' :: R) (q0 + 1)
    rw [hcq, hq] at hc1
    have hc : c0 = c := Option.some.inj hc1
    subst hc
    rw [hqws] at hc2
    exact absurd hc2 (by simp)

/-- When neither the visible line end nor anything after it holds a
dash the pattern cannot reach one at all. -/
theorem dashReach_line_false_nodash (L R : List Char)
    (hLdash : ∀ c ∈ L, c ≠ '-') (hR : ∀ c ∈ R, c ≠ '-') :
    ¬ dashReach (L ++ '\n' :: R) := by
  rintro ⟨j1, k, j2, _, _, _, _, hdash⟩
  rcases lt_trichotomy (j1 + k + j2) L.length with hP | hP | hP
  · rw [charAt_append_left hP] at hdash
    exact hLdash '-' (charAt_mem hdash) rfl
  · rw [hP] at hdash
    rw [charAt, List.drop_left] at hdash
    exact absurd (Option.some.inj hdash) (by decide)
  · obtain ⟨pr, hpr⟩ : ∃ pr, j1 + k + j2 = L.length + (pr + 1) :=
      ⟨j1 + k + j2 - L.length - 1, by omega⟩
    have hstep : charAt (L ++ '\n' :: R) (L.length + (pr + 1)) = charAt ('\n' :: R) (pr + 1) :=
      charAt_append_right L ('\n' :: R) (pr + 1)
    rw [← hpr, hdash] at hstep
    exact hR '-' (charAt_mem hstep.symm) rfl

/-- The first advisory digit-dot site: after "music.163." no dash is
reachable, whatever follows the trailer. -/
theorem dashReach_S1_false (X : List Char) :
    ¬ dashReach
      (("com/\n   User-Agent: Mozilla/5.0 (Windows NT 10.0; Win64; x64) AppleWebKit/537.36\n\n" : String).data ++ X) := by
  have hsplit :
      (("com/\n   User-Agent: Mozilla/5.0 (Windows NT 10.0; Win64; x64) AppleWebKit/537.36\n\n" : String).data ++ X) =
      ("com/" : String).data ++ '\n' ::
        (("   User-Agent: Mozilla/5.0 (Windows NT 10.0; Win64; x64) AppleWebKit/537.36\n\n" : String).data ++ X) := rfl
  rw [hsplit]
  apply dashReach_line_false _ _ 3 'U'
  · decide
  · intro c hc
    have h1 : 'c' = c := Option.some.inj hc
    subst h1
    decide
  · decide
  · rw [charAt_append_left (by decide)]
    rfl
  · decide
  · intro p hp hcon
    interval_cases p <;>
      (rw [charAt_append_left (by decide)] at hcon
       exact absurd (Option.some.inj hcon) (by decide))

/-- The later advisory digit-dot sites: the rest of the User-Agent line
holds no dash, and after its newline comes the blank line and then
either nothing or the digit-headed next block. -/
theorem dashReach_tail_false (L : List Char) (X : List Char)
    (hLdash : ∀ c ∈ L, c ≠ '-')
    (hX : X = [] ∨ ∃ c, X.head? = some c ∧ pyDigit c = true)
    (hLne : L ≠ []) (hLhead : ∀ c, L.head? = some c → pyWsChar c = false) :
    ¬ dashReach (L ++ '\n' :: ('\n' :: X)) := by
  rcases hX with hX | ⟨c, hc, hcd⟩
  · subst hX
    exact dashReach_line_false_nodash L ['\n'] hLdash (by decide)
  · cases X with
    | nil => simp at hc
    | cons x t =>
      have hx : x = c := by simpa using hc
      subst hx
      apply dashReach_line_false L ('\n' :: x :: t) 1 x hLne hLhead hLdash rfl
        (pyDigit_not_ws hcd)
      intro p hp hcon
      interval_cases p
      · exact absurd (Option.some.inj hcon) (by decide)
      · have h1 : x = '-' := Option.some.inj hcon
        subst h1
        exact absurd hcd (by decide)

/-- Exhaustive scan of the advisory trailer: every position where the
head is a digit run followed by a dot leaves one of the four concrete
after-dot suffixes. -/
theorem trailer_positions :
    ∀ j, j < trailerChars.length →
      1 ≤ npfx pyDigit (trailerChars.drop j) →
      charAt (trailerChars.drop j) (npfx pyDigit (trailerChars.drop j)) = some '.' →
      (trailerChars.drop (j + npfx pyDigit (trailerChars.drop j) + 1) =
          ("com/\n   User-Agent: Mozilla/5.0 (Windows NT 10.0; Win64; x64) AppleWebKit/537.36\n\n" : String).data ∨
        trailerChars.drop (j + npfx pyDigit (trailerChars.drop j) + 1) =
          ("0 (Windows NT 10.0; Win64; x64) AppleWebKit/537.36\n\n" : String).data ∨
        trailerChars.drop (j + npfx pyDigit (trailerChars.drop j) + 1) =
          ("0; Win64; x64) AppleWebKit/537.36\n\n" : String).data ∨
        trailerChars.drop (j + npfx pyDigit (trailerChars.drop j) + 1) =
          ("36\n\n" : String).data) := by
  set_option maxRecDepth 100000 in decide

/-- No match of the block pattern starts anywhere strictly inside the
advisory trailer, whatever digit-headed blocks or nothing follow it. -/
theorem matchSong_none_trailer (X : List Char)
    (hX : X = [] ∨ ∃ c, X.head? = some c ∧ pyDigit c = true) :
    ∀ j, j < trailerChars.length → matchSong (trailerChars.drop j ++ X) = none := by
  intro j hj
  cases hm : matchSong (trailerChars.drop j ++ X) with
  | none => rfl
  | some res =>
    exfalso
    obtain ⟨hge, hdot, hreach⟩ := matchSong_numDot hm
    have hUne : trailerChars.drop j ≠ [] := by
      intro hcon
      have := congrArg List.length hcon
      simp only [List.length_drop, List.length_nil] at this
      omega
    have hUlast : (trailerChars.drop j).getLast? = some '\n' := by
      rw [getLast_drop_of_lt _ _ hj]
      rfl
    have hUlt : npfx pyDigit (trailerChars.drop j) < (trailerChars.drop j).length := by
      have h2 := @npfx_lt_of_last pyDigit (trailerChars.drop j) [] hUne (by
        intro c hc
        rw [hUlast] at hc
        have h3 : '\n' = c := Option.some.inj hc
        subst h3
        decide)
      simpa using h2
    have hnp : npfx pyDigit (trailerChars.drop j ++ X) = npfx pyDigit (trailerChars.drop j) :=
      npfx_append_of_lt _ X hUlt
    rw [hnp] at hge hdot hreach
    rw [charAt_append_left hUlt] at hdot
    have hcases := trailer_positions j hj hge hdot
    have hdrop : (trailerChars.drop j ++ X).drop (npfx pyDigit (trailerChars.drop j) + 1) =
        trailerChars.drop (j + npfx pyDigit (trailerChars.drop j) + 1) ++ X := by
      rw [drop_append_le _ _ _ (by omega), List.drop_drop,
        show j + (npfx pyDigit (trailerChars.drop j) + 1) =
          j + npfx pyDigit (trailerChars.drop j) + 1 from by omega]
    rw [hdrop] at hreach
    rcases hcases with h4 | h4 | h4 | h4
    · rw [h4] at hreach
      exact dashReach_S1_false X hreach
    · rw [h4] at hreach
      exact dashReach_tail_false
        ("0 (Windows NT 10.0; Win64; x64) AppleWebKit/537.36" : String).data X
        (by decide) hX (by decide)
        (by intro c hc
            have h5 : '0' = c := Option.some.inj hc
            subst h5
            decide) hreach
    · rw [h4] at hreach
      exact dashReach_tail_false
        ("0; Win64; x64) AppleWebKit/537.36" : String).data X
        (by decide) hX (by decide)
        (by intro c hc
            have h5 : '0' = c := Option.some.inj hc
            subst h5
            decide) hreach
    · rw [h4] at hreach
      exact dashReach_tail_false ("36" : String).data X
        (by decide) hX (by decide)
        (by intro c hc
            have h5 : '3' = c := Option.some.inj hc
            subst h5
            decide) hreach

/-- No match of the block pattern starts inside a block free head: a
nonempty prefix with no digit-dot pair whose last character is not a
digit cannot host the start of a match, whatever follows. -/
theorem matchSong_none_of_safe_prefix (H X : List Char) (hne : H ≠ [])
    (hlast : ∀ c, H.getLast? = some c → pyDigit c = false)
    (hpair : digitDotPair H = false) :
    matchSong (H ++ X) = none := by
  cases hm : matchSong (H ++ X) with
  | none => rfl
  | some res =>
    exfalso
    obtain ⟨hge, hdot, _⟩ := matchSong_numDot hm
    have hHlen : 1 ≤ H.length := by
      cases H with
      | nil => exact absurd rfl hne
      | cons a t => simp
    have hlt : npfx pyDigit (H ++ X) < H.length := by
      by_contra hge2
      obtain ⟨c, hc1, hc2⟩ := @npfx_charAt_lt pyDigit (H ++ X) (H.length - 1) (by omega)
      rw [charAt_append_left (by omega), charAt_getLast hne] at hc1
      rw [hlast c hc1] at hc2
      exact absurd hc2 (by simp)
    obtain ⟨c, hc1, hc2⟩ :=
      @npfx_charAt_lt pyDigit (H ++ X) (npfx pyDigit (H ++ X) - 1) (by omega)
    rw [charAt_append_left (by omega)] at hc1
    rw [charAt_append_left hlt] at hdot
    have hp := digitDotPair_of_at H (npfx pyDigit (H ++ X) - 1) c hc1 hc2 (by
      rw [show npfx pyDigit (H ++ X) - 1 + 1 = npfx pyDigit (H ++ X) from by omega]
      exact hdot)
    rw [hpair] at hp
    exact absurd hp (by simp)

/-- Scanning across a stretch where no match starts just drops it. -/
theorem findAll_skip :
    ∀ (U X : List Char), (∀ j, j < U.length → matchSong (U.drop j ++ X) = none) →
      findAll (U ++ X) = findAll X := by
  intro U
  induction U with
  | nil => intro X _; rw [List.nil_append]
  | cons c U2 ih =>
    intro X h
    have h0 : matchSong (c :: (U2 ++ X)) = none := by
      have := h 0 (by simp)
      simpa using this
    rw [List.cons_append, findAll_nomatch c (U2 ++ X) h0]
    exact ih X (fun j hj => by
      have := h (j + 1) (by simp only [List.length_cons]; omega)
      simpa using this)

/-- The last element of a list is one of its members. -/
theorem mem_of_getLast {l : List Char} {c : Char} (h : l.getLast? = some c) : c ∈ l := by
  induction l with
  | nil => simp at h
  | cons a t ih =>
    cases t with
    | nil =>
      have : a = c := by simpa using h
      simp [this]
    | cons b t2 =>
      rw [List.getLast?_cons_cons] at h
      simp [ih h]

set_option maxRecDepth 100000 in
/-- One written block is the matched head followed by the advisory
trailer. -/
theorem append_block_eq (s : SongInfo) (i : Nat) :
    (append_song_to_file s i).data = blockHeadChars s i ++ trailerChars := by
  simp only [append_song_to_file, String.data_append, blockHeadChars, trailerChars, natStr,
    List.append_assoc]
  rfl

/-- The manifest header always ends with the blank line. -/
theorem init_file_last (p q g : String) :
    (init_file p q g).data.getLast? = some '\n' := by
  rw [init_file]
  simp only [String.data_append]
  rw [List.getLast?_append_of_ne_nil _ (by decide)]
  decide

/-- A header written for digit-free metadata holds no digit-dot pair. -/
theorem init_file_pair_false (p q g : String)
    (hp : ∀ c ∈ p.data, pyDigit c = false) (hq : ∀ c ∈ q.data, pyDigit c = false)
    (hg : ∀ c ∈ g.data, c ≠ '.') :
    digitDotPair (init_file p q g).data = false := by
  have hdata : (init_file p q g).data =
      ("# 歌单: " : String).data ++ (p.data ++ (("\n# 音质: " : String).data ++
        (q.data ++ (("\n# 生成时间: " : String).data ++ (g.data ++
          (("\n" : String).data ++ (eqLine ++ ("\n\n" : String).data))))))) := by
    simp only [init_file, String.data_append, List.append_assoc]
  rw [hdata]
  have h8 : digitDotPair (eqLine ++ ("\n\n" : String).data) = false := by decide
  have h7 : digitDotPair (("\n" : String).data ++ (eqLine ++ ("\n\n" : String).data)) =
      false := by
    refine digitDotPair_append_false (by decide) h8 ?_
    intro c hc hd
    have h0 : '\n' = c := Option.some.inj hc
    subst h0
    exact absurd hd (by decide)
  have h6 : digitDotPair (g.data ++ (("\n" : String).data ++
      (eqLine ++ ("\n\n" : String).data))) = false := by
    refine digitDotPair_append_false (digitDotPair_no_dot hg) h7 ?_
    intro c hc hd hcon
    exact absurd (Option.some.inj hcon) (by decide)
  have h5 : digitDotPair (("\n# 生成时间: " : String).data ++ (g.data ++
      (("\n" : String).data ++ (eqLine ++ ("\n\n" : String).data)))) = false := by
    refine digitDotPair_append_false (by decide) h6 ?_
    intro c hc hd
    have h0 : ' ' = c := Option.some.inj hc
    subst h0
    exact absurd hd (by decide)
  have h4 : digitDotPair (q.data ++ (("\n# 生成时间: " : String).data ++ (g.data ++
      (("\n" : String).data ++ (eqLine ++ ("\n\n" : String).data))))) = false := by
    refine digitDotPair_append_false (digitDotPair_no_digit (fun c hc => hq c hc)) h5 ?_
    intro c hc hd
    rw [hq c (mem_of_getLast hc)] at hd
    exact absurd hd (by simp)
  have h3 : digitDotPair (("\n# 音质: " : String).data ++ (q.data ++
      (("\n# 生成时间: " : String).data ++ (g.data ++ (("\n" : String).data ++
        (eqLine ++ ("\n\n" : String).data)))))) = false := by
    refine digitDotPair_append_false (by decide) h4 ?_
    intro c hc hd
    have h0 : ' ' = c := Option.some.inj hc
    subst h0
    exact absurd hd (by decide)
  have h2 : digitDotPair (p.data ++ (("\n# 音质: " : String).data ++ (q.data ++
      (("\n# 生成时间: " : String).data ++ (g.data ++ (("\n" : String).data ++
        (eqLine ++ ("\n\n" : String).data))))))) = false := by
    refine digitDotPair_append_false (digitDotPair_no_digit (fun c hc => hp c hc)) h3 ?_
    intro c hc hd
    rw [hp c (mem_of_getLast hc)] at hd
    exact absurd hd (by simp)
  refine digitDotPair_append_false (by decide) h2 ?_
  intro c hc hd
  have h0 : ' ' = c := Option.some.inj hc
  subst h0
  exact absurd hd (by decide)

/-- The scan over all written blocks collects exactly the expected
groups of every record, in order. -/
theorem findAll_blocks :
    ∀ (songs : List SongInfo) (i : Nat), (∀ s ∈ songs, recordSafe s = true) →
      findAll ((manifestBlocks i songs).data) = expectedGroups i songs := by
  intro songs
  induction songs with
  | nil => intro i _; rfl
  | cons s rest ih =>
    intro i hsafe
    have hdata : (manifestBlocks i (s :: rest)).data =
        blockHeadChars s i ++ (trailerChars ++ (manifestBlocks (i + 1) rest).data) := by
      show (append_song_to_file s i ++ manifestBlocks (i + 1) rest).data = _
      rw [String.data_append, append_block_eq, List.append_assoc]
    rw [hdata]
    have hm := matchSong_block s i ((manifestBlocks (i + 1) rest).data)
      (hsafe s (by simp))
    rw [findAll_match _ _ _ hm]
    have hX : (manifestBlocks (i + 1) rest).data = [] ∨
        ∃ c, ((manifestBlocks (i + 1) rest).data).head? = some c ∧ pyDigit c = true := by
      cases rest with
      | nil => exact Or.inl rfl
      | cons s2 r2 =>
        right
        have hdata2 : (manifestBlocks (i + 1) (s2 :: r2)).data =
            blockHeadChars s2 (i + 1) ++
              (trailerChars ++ (manifestBlocks (i + 2) r2).data) := by
          show (append_song_to_file s2 (i + 1) ++ manifestBlocks (i + 2) r2).data = _
          rw [String.data_append, append_block_eq, List.append_assoc]
        rw [hdata2]
        simp only [blockHeadChars, List.append_assoc]
        rw [List.head?_append_of_ne_nil _ (natChars_ne_nil _)]
        cases hn : natChars (i + 1) with
        | nil => exact absurd hn (natChars_ne_nil _)
        | cons c t =>
          exact ⟨c, by simp, natChars_digits _ c (by rw [hn]; simp)⟩
    rw [findAll_skip trailerChars ((manifestBlocks (i + 1) rest).data)
      (matchSong_none_trailer _ hX)]
    rw [ih (i + 1) (fun s2 hs2 => hsafe s2 (by simp [hs2]))]
    rfl

/-- Building the parsed records from the expected groups strips nothing
and reads the numbers back. -/
theorem filterMap_expectedGroups :
    ∀ (songs : List SongInfo) (i : Nat), (∀ s ∈ songs, recordSafe s = true) →
      (expectedGroups i songs).filterMap groupsToSong = expectedParsed i songs := by
  intro songs
  induction songs with
  | nil => intro i _; rfl
  | cons s rest ih =>
    intro i hsafe
    have hs := hsafe s (by simp)
    rw [recordSafe] at hs
    simp only [Bool.and_eq_true] at hs
    obtain ⟨⟨⟨⟨hnm0, har0⟩, hqu0⟩, hur0⟩, hty0⟩ := hs
    rw [nameSafe] at hnm0
    simp only [Bool.and_eq_true] at hnm0
    rw [qualitySafe] at hqu0
    simp only [Bool.and_eq_true] at hqu0
    obtain ⟨_, _, hnm3, hnm4⟩ := fieldSafe_spec hnm0.1
    obtain ⟨_, _, har3, har4⟩ := fieldSafe_spec har0
    obtain ⟨_, _, hqu3, hqu4⟩ := fieldSafe_spec hqu0.1
    obtain ⟨_, _, hur3, hur4⟩ := fieldSafe_spec hur0
    obtain ⟨_, _, hty3, hty4⟩ := fieldSafe_spec hty0
    have hg : groupsToSong [natChars i, s.name.data, s.artist.data, natChars s.song_id,
        s.quality.data, natChars s.bitrate, s.url.data, natChars s.size, s.type.data] =
        some ⟨i, s.name, s.artist, natStr s.song_id, s.quality, s.bitrate, s.url,
          s.size, s.type⟩ := by
      show some (⟨digitsVal (natChars i), ⟨pyStripChars s.name.data⟩,
        ⟨pyStripChars s.artist.data⟩, ⟨natChars s.song_id⟩, ⟨pyStripChars s.quality.data⟩,
        digitsVal (natChars s.bitrate), ⟨pyStripChars s.url.data⟩,
        digitsVal (natChars s.size), ⟨pyStripChars s.type.data⟩⟩ : ParsedSong) = _
      rw [digitsVal_natChars, digitsVal_natChars, digitsVal_natChars,
        pyStripChars_eq_self hnm3 hnm4, pyStripChars_eq_self har3 har4,
        pyStripChars_eq_self hqu3 hqu4, pyStripChars_eq_self hur3 hur4,
        pyStripChars_eq_self hty3 hty4]
      rfl
    show ([natChars i, s.name.data, s.artist.data, natChars s.song_id, s.quality.data,
      natChars s.bitrate, s.url.data, natChars s.size, s.type.data] ::
        expectedGroups (i + 1) rest).filterMap groupsToSong = _
    rw [List.filterMap_cons_some hg, ih (i + 1) (fun s2 hs2 => hsafe s2 (by simp [hs2]))]
    rfl

/-- C2 (amended): for a header whose playlist name and quality are
digit free and whose timestamp is dot free, and for records whose text
fields are nonempty, free of newlines, not whitespace-trimmed, with no
dash in the name and no opening parenthesis in the quality, writing the
header with init_file and every record with append_song_to_file and
then parsing with parse_list_file recovers exactly one record per
written record, in order, with the one-based index and every field
value written. -/
theorem c2_roundtrip_amended (playlistName quality genTime : String)
    (songs : List SongInfo)
    (hhead : headerSafe playlistName quality genTime = true)
    (hsongs : ∀ s ∈ songs, recordSafe s = true) :
    parse_list_file (writeManifest playlistName quality genTime songs) =
      expectedParsed 1 songs := by
  rw [headerSafe] at hhead
  simp only [Bool.and_eq_true, List.all_eq_true, Bool.not_eq_true', bne_iff_ne] at hhead
  obtain ⟨⟨hp, hq⟩, hg⟩ := hhead
  have hpair : digitDotPair (init_file playlistName quality genTime).data = false :=
    init_file_pair_false _ _ _ (fun c hc => (hp c hc).1) (fun c hc => (hq c hc).1)
      (fun c hc => (hg c hc).1)
  have hlastH := init_file_last playlistName quality genTime
  have hskip : ∀ j, j < (init_file playlistName quality genTime).data.length →
      matchSong ((init_file playlistName quality genTime).data.drop j ++
        (manifestBlocks 1 songs).data) = none := by
    intro j hj
    apply matchSong_none_of_safe_prefix
    · intro hcon
      have := congrArg List.length hcon
      simp only [List.length_drop, List.length_nil] at this
      omega
    · intro c hc
      rw [getLast_drop_of_lt _ _ hj, hlastH] at hc
      have h0 : '\n' = c := Option.some.inj hc
      subst h0
      decide
    · exact digitDotPair_drop hpair j
  rw [parse_list_file, writeManifest, String.data_append, findAll_skip _ _ hskip,
    findAll_blocks songs 1 hsongs, filterMap_expectedGroups songs 1 hsongs]

/-- Witness for the amended round trip at one concrete safe record. -/
theorem c2_roundtrip_amended_witness :
    headerSafe "测试歌单" "标准" "现在" = true ∧
    (∀ s ∈ [(⟨"歌名", "歌手", 55, "标准", 320, "https://x", 4096, "mp3"⟩ : SongInfo)],
      recordSafe s = true) ∧
    parse_list_file (writeManifest "测试歌单" "标准" "现在"
      [⟨"歌名", "歌手", 55, "标准", 320, "https://x", 4096, "mp3"⟩]) =
      expectedParsed 1 [⟨"歌名", "歌手", 55, "标准", 320, "https://x", 4096, "mp3"⟩] :=
  ⟨by decide, by decide, c2_roundtrip_amended "测试歌单" "标准" "现在"
    [⟨"歌名", "歌手", 55, "标准", 320, "https://x", 4096, "mp3"⟩] (by decide) (by decide)⟩

set_option maxRecDepth 1000000 in
/-- C2 counterexample: a record whose name holds a dash does not round
trip: the lazy name group of the parser stops at the first dash, so the
written name "A - B" with artist "C" is read back as name "A" with
artist "B - C". -/
theorem c2_dash_name_not_roundtripped :
    (parse_list_file (writeManifest "榜单" "标准" "现在"
        [⟨"A - B", "C", 7, "标准", 320, "https://x", 9, "mp3"⟩])).map
      (fun r => (r.name, r.artist)) = [("A", "B - C")] ∧
    [(("A" : String), ("B - C" : String))] ≠ [("A - B", "C")] := by
  constructor
  · rfl
  · decide

end MusicList
